import Mathlib

/-!
Shallow embedding of the scraping/aggregation core of the repository
(`api/scrap/utils.py`, `api/scrap/news.py`, `api/scrap/software.py`,
`api/scrap/scraping.py`) and proofs about it.

Modelling conventions:
* Python strings are Lean `String`s (lists of unicode scalars); `len`,
  slicing and `strip` act on code points, as in Python 3.
* Python whitespace (`\s`, `str.strip`) is modelled by the six ASCII
  whitespace characters (the code only processes markup text where these
  are the relevant ones).
* The network (`aiohttp` session) is modelled by an attempt trace
  `Nat → Except String String` giving the outcome of the i-th HTTP GET
  attempt against the source's URL: `.ok body` or `.error message`
  (a raised exception / non-2xx status turned into `raise_for_status`).
* `BeautifulSoup` is an external collaborator (spec §6); each strategy
  receives the parsing capability it uses as an explicit function
  argument, and documents the query it performs on the real page.
* `urljoin` (Python stdlib) is likewise passed in as a function argument.
* Python dicts are insertion-ordered association lists (`PyDict`):
  assigning to an existing key replaces the value in place, assigning a
  new key appends it, exactly as CPython dicts behave.
* Raised exceptions are `Except.error`; a function that cannot raise is
  total.
-/

/-- The six ASCII whitespace characters matched by Python's `\s` and
stripped by `str.strip()` (restriction of Python's unicode whitespace to
ASCII). -/
def isPyWs (c : Char) : Bool :=
  c == ' ' || c == '\t' || c == '\n' || c == '\r' || c == '\x0b' || c == '\x0c'

/-- `str.strip()` on a character list: drop whitespace from both ends. -/
def pyStripChars (l : List Char) : List Char :=
  ((l.dropWhile isPyWs).reverse.dropWhile isPyWs).reverse

/-- `str.strip()` on a string. -/
def pyStrip (s : String) : String :=
  String.mk (pyStripChars s.toList)

/-- `str.rstrip()` on a character list: drop trailing whitespace. -/
def pyRstripChars (l : List Char) : List Char :=
  (l.reverse.dropWhile isPyWs).reverse

/-- `re.sub(r"\s+", " ", ·)`: replace every maximal run of whitespace by a
single space.  The boolean flag records whether the previous character was
part of a whitespace run (so only the first character of a run emits the
space). -/
def subWsAux : Bool → List Char → List Char
  | _, [] => []
  | inRun, c :: cs =>
    if isPyWs c then
      if inRun then subWsAux true cs else ' ' :: subWsAux true cs
    else c :: subWsAux false cs

/-- `api/scrap/utils.py` `clean_text(text, max_chars=300)`:
`cleaned = re.sub(r"\s+", " ", text.strip())`, then if longer than
`max_chars`, truncate, `rstrip`, and append `"..."`.  The Python default
`max_chars = 300` is passed explicitly at call sites. -/
def clean_text (text : String) (max_chars : Nat) : String :=
  let cleaned := String.mk (subWsAux false (pyStripChars text.toList))
  if cleaned.length > max_chars then
    String.mk (pyRstripChars (cleaned.toList.take max_chars)) ++ "..."
  else cleaned

/-- Split a character list into its maximal runs of non-whitespace
characters (Python's `str.split()` with no argument).  `acc` is the
reversed current word. -/
def wordsAux : List Char → List Char → List (List Char)
  | acc, [] => if acc.isEmpty then [] else [acc.reverse]
  | acc, c :: cs =>
    if isPyWs c then
      if acc.isEmpty then wordsAux [] cs else acc.reverse :: wordsAux [] cs
    else wordsAux (c :: acc) cs

/-- The list of whitespace-separated words of a string (`str.split()`),
used both by the news strategy embedding and as the specification-side
description of whitespace collapsing. -/
def pyWords (s : String) : List String :=
  (wordsAux [] s.toList).map String.mk

/-- `re.split(r"(?<=\.)\s+", ·)`: split at each maximal whitespace run
that is immediately preceded by a period.  `none` state means we are
inside a separator run; `some cur` carries the reversed current segment. -/
def sentSplitAux : Option (List Char) → List Char → List (List Char)
  | none, [] => [[]]
  | some cur, [] => [cur.reverse]
  | none, c :: cs =>
    if isPyWs c then sentSplitAux none cs else sentSplitAux (some [c]) cs
  | some cur, c :: cs =>
    if isPyWs c && cur.head? == some '.' then cur.reverse :: sentSplitAux none cs
    else sentSplitAux (some (c :: cur)) cs

/-- `re.split(r"(?<=\.)\s+", text)` as used by the software strategies to
pick the first sentence. -/
def pySplitSentences (s : String) : List String :=
  (sentSplitAux (some []) s.toList).map String.mk

/-! ### A model of the Python `re` subset used by the code

The code calls `re.search` with patterns built from literals, `\d`,
`+`, `*`, `(?: )` grouping and a single capture group, then reads
`match.group(1)`.  `Re` is that pattern language; `reMatches` is a
backtracking matcher whose candidate list is ordered exactly like the
Python engine explores alternatives (greedy repetition: longer matches
first, left alternative first), so the head of the list is the match
Python returns.  Case-insensitive comparison models the `re.IGNORECASE`
flag of `extract_version`; the patterns embedded here contain no cased
letters whose behaviour would differ without the flag.  The capture-group
model is exact for patterns in which the group occurs at most once and
not under repetition, which covers every pattern in the code. -/
inductive Re where
  | eps
  | lit (c : Char)
  | digit
  | cat (a b : Re)
  | alt (a b : Re)
  | star (a : Re)
  | group (a : Re)
deriving DecidableEq

/-- First-set-wins combination of capture results from two sub-matches. -/
def orOpt : Option (List Char) → Option (List Char) → Option (List Char)
  | some x, _ => some x
  | none, b => b

/-- Bounded iteration of a starred sub-pattern: try one more greedy
unrolling of the body (each must consume at least one character) before
offering the empty unrolling, exactly the order the Python engine
explores.  `m` is the matcher of the starred body. -/
def starLoop (m : List Char → List (Option (List Char) × List Char)) :
    Nat → List Char → List (Option (List Char) × List Char)
  | 0, s => [(none, s)]
  | fuel + 1, s =>
    ((m s).filter fun r => r.2.length < s.length).flatMap
      (fun r => (starLoop m fuel r.2).map fun r2 => (orOpt r.1 r2.1, r2.2))
    ++ [(none, s)]

/-- All ways the pattern can match a prefix of `s`, in the order the
Python backtracking engine tries them; each candidate is the group-1
capture (if any) and the remaining suffix.  `fuel` bounds `star`
unrollings; every unrolling must consume at least one character, so
`s.length + 1` fuel is always sufficient. -/
def reMatches (fuel : Nat) : Re → List Char → List (Option (List Char) × List Char)
  | .eps, s => [(none, s)]
  | .lit _, [] => []
  | .lit c, d :: rest =>
    if d.toLower == c.toLower then [(none, rest)] else []
  | .digit, [] => []
  | .digit, d :: rest => if d.isDigit then [(none, rest)] else []
  | .cat a b, s =>
    (reMatches fuel a s).flatMap fun r =>
      (reMatches fuel b r.2).map fun r2 => (orOpt r.1 r2.1, r2.2)
  | .alt a b, s => reMatches fuel a s ++ reMatches fuel b s
  | .group a, s =>
    (reMatches fuel a s).map fun r => (some (s.take (s.length - r.2.length)), r.2)
  | .star a, s => starLoop (reMatches fuel a) fuel s

/-- `re.search(pattern, text, re.IGNORECASE)`: scan for the leftmost
position where the pattern matches, and return `group(1)` of the first
match the engine finds there (`none` inside means the group did not
participate, Python's `None`). -/
def reSearch (pattern : Re) (text : String) : Option (Option String) :=
  let cs := text.toList
  (List.range (cs.length + 1)).findSome? fun i =>
    (reMatches (cs.length + 1) pattern (cs.drop i)).head?.map fun r =>
      r.1.map String.mk

/-- `api/scrap/utils.py` `extract_version(text, pattern, default="Unknown")`:
`match = re.search(pattern, text, re.IGNORECASE)` then
`match.group(1) if match else default`.  The result is `some s` for a
returned string and `none` for Python's `None` (a matched pattern whose
group did not participate). -/
def extract_version (pattern : Re) (text : String) (dflt : String) : Option String :=
  match reSearch pattern text with
  | some g1 => g1
  | none => some dflt

/-- Concatenation of case-insensitive literals for a whole string. -/
def litsRe (s : String) : Re :=
  s.toList.foldr (fun c r => .cat (.lit c) r) .eps

/-- `\d+` -/
def digitPlus : Re := .cat .digit (.star .digit)

/-- The version pattern `(\d+\.\d+(?:\.\d+)*)` used by
`fetch_cmus_stable_version` (and, minus the trailing repetition, by the
round-trip template). -/
def cmusVersionPat : Re :=
  .group (.cat digitPlus (.cat (.lit '.') (.cat digitPlus
    (.star (.cat (.lit '.') digitPlus)))))

/-- A template pattern `version (\d+\.\d+)` for the round-trip property:
a known version number interpolated after the word `version `. -/
def versionRoundTripPat : Re :=
  .cat (litsRe "version ") (.group (.cat digitPlus (.cat (.lit '.') digitPlus)))

/-! ### Fetcher -/

/-- `RETRY_ATTEMPTS = 3` (`api/scrap/utils.py`). -/
def RETRY_ATTEMPTS : Nat := 3

/-- Loop body of `fetch_with_retry`: try attempts `first, first+1, ...`
while `remaining` attempts are left; re-raise the last failure.  The
randomized backoff sleep between attempts has no observable effect on the
returned value and is not modelled. -/
def fetchRetryAux (trace : Nat → Except String String) :
    Nat → Nat → Except String String
  | _, 0 => .error "no attempts"
  | first, remaining + 1 =>
    match trace first with
    | .ok body => .ok body
    | .error e =>
      if remaining == 0 then .error e
      else fetchRetryAux trace (first + 1) remaining

/-- `api/scrap/utils.py` `fetch_with_retry(session, url)`: up to
`RETRY_ATTEMPTS` GET attempts, returning the first successful body and
re-raising the final failure after the budget is exhausted. -/
def fetch_with_retry (trace : Nat → Except String String) : Except String String :=
  fetchRetryAux trace 0 RETRY_ATTEMPTS

/-! ### Records and the generic selector strategy -/

/-- A record produced by the headline strategies: the Python dict
`{"text": ..., "url": ...}`. -/
structure ScrapedRec where
  text : String
  url : String
deriving DecidableEq

/-- One element returned by `soup.select(css_selector)`: its extracted
text and its `href` attribute (`none` when absent, so that
`el.get("href", "#")` falls back to `"#"`). -/
structure SelElement where
  text : String
  href : Option String
deriving DecidableEq

/-- `MAX_HEADLINES = 5` (`api/scrap/scraping.py`). -/
def MAX_HEADLINES : Nat := 5

/-- `api/scrap/scraping.py` `fetch_by_selector(session, url, css_selector)`.
`select html css` models `BeautifulSoup(html).select(css)`; `urljoin2`
models `urllib.parse.urljoin`.  The whole body is inside
`try: ... except Exception: return []`, so a fetch failure yields `[]`. -/
def fetch_by_selector (trace : Nat → Except String String)
    (select : String → String → List SelElement)
    (urljoin2 : String → String → String) (url css : String) : List ScrapedRec :=
  match fetch_with_retry trace with
  | .error _ => []
  | .ok html =>
    let elements := (select html css).take MAX_HEADLINES
    elements.filterMap fun el =>
      if pyStrip el.text ≠ "" then
        some ⟨clean_text el.text 300, urljoin2 url (el.href.getD "#")⟩
      else none

/-! ### News strategies (`api/scrap/news.py`) -/

/-- The `<a>` element found inside one article `div`: its text and its
`href` attribute (`title.get("href", "#")` falls back to `"#"`). -/
structure NewsLink where
  text : String
  href : Option String
deriving DecidableEq

/-- One article `div` as seen by `fetch_news`: `article.find("a")`,
which may be absent. -/
abbrev NewsArticle := Option NewsLink

/-- `api/scrap/news.py` `fetch_news(session, url, class_name, max_words=15,
ellipsis="...")`.  `parse html cls` models
`BeautifulSoup(html).find_all("div", class_=cls)`.  The single
`session.get` (attempt 0 of the trace, no retry loop) and
`raise_for_status` are NOT wrapped in any `try`/`except`: a failure
propagates to the caller as `.error`.  Python defaults `max_words = 15`
and `ellipsis = "..."` are passed explicitly at the call sites below. -/
def fetch_news (trace : Nat → Except String String)
    (parse : String → String → List NewsArticle)
    (urljoin2 : String → String → String) (url class_name : String)
    (max_words : Nat) (ellipsis : String) : Except String (List ScrapedRec) :=
  match trace 0 with
  | .error e => .error e
  | .ok html =>
    let articles := parse html class_name
    .ok ((articles.take 5).filterMap fun article =>
      match article with
      | none => none
      | some title =>
        let allWords := pyWords title.text
        let words := allWords.take max_words
        let headline := " ".intercalate words
        let headline :=
          if words.length < allWords.length then headline ++ ellipsis else headline
        some ⟨headline, urljoin2 url (title.href.getD "#")⟩)

/-- `api/scrap/news.py` `bbc`: `fetch_news` with `class_name="bbc-14zb6im"`. -/
def bbc (trace : Nat → Except String String)
    (parse : String → String → List NewsArticle)
    (urljoin2 : String → String → String) (url : String) :
    Except String (List ScrapedRec) :=
  fetch_news trace parse urljoin2 url "bbc-14zb6im" 15 "..."

/-- `api/scrap/news.py` `dw`: `fetch_news` with `class_name="news-title"`. -/
def dw (trace : Nat → Except String String)
    (parse : String → String → List NewsArticle)
    (urljoin2 : String → String → String) (url : String) :
    Except String (List ScrapedRec) :=
  fetch_news trace parse urljoin2 url "news-title" 15 "..."

/-- `api/scrap/news.py` `cnn`: `fetch_news` with
`class_name="container_lead-plus-headlines__item"`. -/
def cnn (trace : Nat → Except String String)
    (parse : String → String → List NewsArticle)
    (urljoin2 : String → String → String) (url : String) :
    Except String (List ScrapedRec) :=
  fetch_news trace parse urljoin2 url "container_lead-plus-headlines__item" 15 "..."

/-- `api/scrap/news.py` `irishtimes`: `fetch_news` with
`class_name="b-flex-promo-card__text"`. -/
def irishtimes (trace : Nat → Except String String)
    (parse : String → String → List NewsArticle)
    (urljoin2 : String → String → String) (url : String) :
    Except String (List ScrapedRec) :=
  fetch_news trace parse urljoin2 url "b-flex-promo-card__text" 15 "..."

/-! ### Python dictionaries -/

/-- An insertion-ordered Python dict: assigning an existing key replaces
its value in place, assigning a new key appends it at the end. -/
def setEntries {α : Type} : List (String × α) → String → α → List (String × α)
  | [], k, v => [(k, v)]
  | (k', v') :: rest, k, v =>
    if k' = k then (k, v) :: rest else (k', v') :: setEntries rest k v

/-- Key lookup in an association list (Python `d.get(k)` / `k in d`). -/
def getEntry {α : Type} : List (String × α) → String → Option α
  | [], _ => none
  | (k', v') :: rest, k => if k' = k then some v' else getEntry rest k

/-- A Python dict with `String` keys. -/
structure PyDict (α : Type) where
  entries : List (String × α)
deriving DecidableEq

/-- The empty dict `{}`. -/
def PyDict.empty {α : Type} : PyDict α := ⟨[]⟩

/-- `d[k] = v`. -/
def PyDict.set {α : Type} (d : PyDict α) (k : String) (v : α) : PyDict α :=
  ⟨setEntries d.entries k v⟩

/-- `d.get(k)` (`none` for a missing key). -/
def PyDict.get? {α : Type} (d : PyDict α) (k : String) : Option α :=
  getEntry d.entries k

/-- `d.get(k, dflt)`. -/
def PyDict.getD {α : Type} (d : PyDict α) (k : String) (dflt : α) : α :=
  (d.get? k).getD dflt

/-- `list(d.keys())`, in insertion order. -/
def PyDict.keys {α : Type} (d : PyDict α) : List String :=
  d.entries.map Prod.fst

/-! ### The cmus software strategy (`api/scrap/software.py`) -/

/-- The first release `<li>` of the cmus page, as selected by
`soup.select_one("#content > div:nth-child(8) > ul > li:nth-child(1)")`:
its text and the `href` of `li.find("a", href=True, string="release notes")`
(`none` when that link is absent). -/
structure CmusLi where
  text : String
  releaseNotesHref : Option String
deriving DecidableEq

/-- The cmus page as seen by `fetch_cmus_stable_version`: the result of
the one `select_one` query it performs (`none` when no element matches). -/
structure CmusDoc where
  releaseLi : Option CmusLi
deriving DecidableEq

/-- A record as passed around by the aggregator: a Python dict from field
names to strings. -/
abbrev Item := PyDict String

/-- `api/scrap/software.py` `fetch_cmus_stable_version(session, url)`.
`parse` models `BeautifulSoup` restricted to the queries this strategy
makes; `nowIso` models `datetime.datetime.utcnow().isoformat() + "Z"`.
The whole body is inside `try: ... except Exception: return []`. -/
def fetch_cmus_stable_version (trace : Nat → Except String String)
    (parse : String → CmusDoc) (nowIso : String) (url : String) : List Item :=
  match fetch_with_retry trace with
  | .error _ => []
  | .ok html =>
    let soup := parse html
    match soup.releaseLi with
    | none => []
    | some li =>
      let full_text := clean_text li.text 300
      let version :=
        match reSearch cmusVersionPat full_text with
        | some g1 => g1.getD "Unknown"
        | none => "Unknown"
      let release_url := li.releaseNotesHref.getD url
      let sentences := pySplitSentences full_text
      let description := sentences.headD full_text
      [⟨[("title", "cmus"), ("latest_version", version),
         ("description", description), ("url", release_url),
         ("fetched_at", nowIso)]⟩]

/-! ### The aggregator (`api/scrap/scraping.py` `get_updates`) -/

/-- One entry of the `sources` config list, a JSON object read with
`source.get(...)`: `none` models an absent key. -/
structure PySource where
  name : Option String
  url : Option String
  css_selector : Option String
  mode : Option String
  category : Option String
deriving DecidableEq

/-- Python truthiness of `source.get(k)` for string fields: `None` and
`""` are falsy. -/
def pyTruthy : Option String → Bool
  | none => false
  | some s => !s.isEmpty

/-- The names registered in `SCRAPER_REGISTRY`
(`api/scrap/scraping.py`). -/
def SCRAPER_REGISTRY : List String :=
  ["Debian", "Python", "Vim", "aShell", "cmus", "GnuPG",
   "BBC", "DW", "CNN", "Irish Times"]

/-- The kind of task scheduled for a source: a registry scraper or the
generic selector strategy bound to a CSS selector. -/
inductive TaskSpec where
  | custom (url : String)
  | selector (url sel : String)
deriving DecidableEq

/-- One iteration of the scheduling loop of `get_updates` (lines 91-115):
read the entry's fields with their defaults, `continue` on a falsy `name`
or `url`, record `source_categories[name] = category`, then either bind a
registered custom scraper, bind the generic selector strategy, or skip
with a warning. -/
def scheduleStep (s : PySource) (tasks : PyDict TaskSpec) (cats : PyDict String) :
    PyDict TaskSpec × PyDict String :=
  let name := s.name
  let url := s.url
  let selector := s.css_selector
  let mode := s.mode.getD "default"
  let category := s.category.getD "uncategorized"
  if !(pyTruthy name && pyTruthy url) then (tasks, cats)
  else
    let n := name.getD ""
    let cats := cats.set n category
    if mode = "custom" then
      if n ∈ SCRAPER_REGISTRY then
        (tasks.set n (.custom (url.getD "")), cats)
      else (tasks, cats)
    else if pyTruthy selector then
      (tasks.set n (.selector (url.getD "") (selector.getD "")), cats)
    else (tasks, cats)

/-- The scheduling loop of `get_updates`: fold `scheduleStep` over the
configured sources, building the `tasks` and `source_categories` dicts. -/
def scheduleAux : List PySource → PyDict TaskSpec → PyDict String →
    PyDict TaskSpec × PyDict String
  | [], tasks, cats => (tasks, cats)
  | s :: rest, tasks, cats =>
    let p := scheduleStep s tasks cats
    scheduleAux rest p.1 p.2

/-- Whether the scheduling loop creates a task for a valid source entry:
custom mode with a registered name, or any other mode with a truthy
`css_selector`. -/
def isScheduledSpec (s : PySource) : Bool :=
  if s.mode.getD "default" = "custom" then s.name.getD "" ∈ SCRAPER_REGISTRY
  else pyTruthy s.css_selector

/-- The timestamp-stamping step of `get_updates` (lines 134-151), applied
to each item of a successful task result.  `T` is the type of `datetime`
instants; `isoZ` models `dt.isoformat().replace("+00:00", "Z")`,
`kyivFmt` models `dt.astimezone(kyiv_tz).strftime("%Y-%m-%d %H:%M")`, and
`parseIso` models `datetime.datetime.fromisoformat(s.replace("Z",
"+00:00")).replace(tzinfo=pytz.utc)` with `none` for a raised parse
error.  Note the source first sets `new_item["fetched_at"]` to the shared
batch instant, then reads the ORIGINAL `item["fetched_at"]` only to
compute the localized stamp. -/
def stampItem {T : Type} (parseIso : String → Option T) (isoZ : T → String)
    (kyivFmt : T → String) (utc_now : T) (item : Item) : Item :=
  let new_item := item.set "fetched_at" (isoZ utc_now)
  let dt_utc :=
    match item.get? "fetched_at" with
    | some s => (parseIso s).getD utc_now
    | none => utc_now
  new_item.set "fetched_at_kyiv" (kyivFmt dt_utc)

/-- One iteration of the result-assembly loop of `get_updates` (lines
124-153): look up `category = source_categories.get(name, "uncategorized")`,
create the category bucket on first use, and file either `[]` (failed
task, `isinstance(result, Exception)`) or the stamped items (successful
task) under `categorized[category][name]`. -/
def assembleStep (cats : PyDict String) (stamp : Item → Item)
    (outcome : String → Except String (List Item)) (n : String)
    (acc : PyDict (PyDict (List Item))) : PyDict (PyDict (List Item)) :=
  let category := cats.getD n "uncategorized"
  let acc := if (acc.get? category).isSome then acc
             else acc.set category PyDict.empty
  let bucket := (acc.get? category).getD PyDict.empty
  match outcome n with
  | .error _ => acc.set category (bucket.set n [])
  | .ok items => acc.set category (bucket.set n (items.map stamp))

/-- The result-assembly loop of `get_updates`: walk
`zip(tasks.keys(), results)` (here: each task name paired with its own
outcome), running `assembleStep` for each task. -/
def assembleAux (cats : PyDict String) (stamp : Item → Item)
    (outcome : String → Except String (List Item)) :
    List String → PyDict (PyDict (List Item)) → PyDict (PyDict (List Item))
  | [], acc => acc
  | n :: rest, acc =>
    assembleAux cats stamp outcome rest (assembleStep cats stamp outcome n acc)

/-- The `metadata` object of the returned batch. -/
structure Metadata where
  fetched_at : String
  fetched_at_kyiv : String
  total_sources : Nat
  categories : List String
deriving DecidableEq

/-- The value returned by `get_updates`: the bare `{}` returned when no
sources are configured, or the `{"metadata": ..., "updates": ...}`
object. -/
inductive GetUpdatesResult where
  | emptyDict
  | batch (metadata : Metadata) (updates : PyDict (PyDict (List Item)))
deriving DecidableEq

/-- `api/scrap/scraping.py` `get_updates()` with its effects made
explicit: `sources` is what `load_config()` returned, `outcome` gives
each scheduled task's settled result (`asyncio.gather` with
`return_exceptions=True`: `.error` for a raised exception), `utc_now` is
the shared instant computed at result-assembly time, and `parseIso`,
`isoZ`, `kyivFmt` are as in `stampItem`.  The function never raises. -/
def get_updates {T : Type} (parseIso : String → Option T) (isoZ : T → String)
    (kyivFmt : T → String) (utc_now : T)
    (outcome : String → Except String (List Item))
    (sources : List PySource) : GetUpdatesResult :=
  if sources.isEmpty then .emptyDict
  else
    let sched := scheduleAux sources PyDict.empty PyDict.empty
    let tasks := sched.1
    let cats := sched.2
    let categorized :=
      assembleAux cats (stampItem parseIso isoZ kyivFmt utc_now) outcome
        tasks.keys PyDict.empty
    .batch
      { fetched_at := isoZ utc_now
        fetched_at_kyiv := kyivFmt utc_now
        total_sources := tasks.keys.length
        categories := categorized.keys }
      categorized

/-- Lookup of one source's record list in the returned structure:
`result["updates"][category][name]`. -/
def GetUpdatesResult.updLookup : GetUpdatesResult → String → String →
    Option (List Item)
  | .emptyDict, _, _ => none
  | .batch _ u, c, n => (u.get? c).bind fun b => b.get? n

/-! ### The formatter (`api/scrap/scraping.py` `format_output`) -/

/-- `"-" * 20`, the section divider. -/
def DIVIDER : String := "--------------------"

/-- `api/scrap/scraping.py` `format_output(all_news)`: a `parts` list
seeded with `"Updates\n"`, extended per source with a `**name**` header,
one `text\n[URL](url)\n` block per item, and the divider; finally joined
with newlines.  Note there is no special line for an empty item list. -/
def format_output (all_news : PyDict (List ScrapedRec)) : String :=
  let parts := ["Updates\n"]
  let parts := all_news.entries.foldl
    (fun parts p =>
      let parts := parts ++ ["**" ++ p.1 ++ "**"]
      let parts := parts ++ p.2.map fun it =>
        it.text ++ "\n[URL](" ++ it.url ++ ")\n"
      parts ++ [DIVIDER])
    parts
  String.intercalate "\n" parts

/-- Lookup of one slot in the accumulator of the assembly loop. -/
def updG (acc : PyDict (PyDict (List Item))) (c n : String) : Option (List Item) :=
  (acc.get? c).bind fun b => b.get? n

/-- What the assembly loop files for task `n`: `[]` when the task raised,
the stamped items when it succeeded. -/
def taskRecords (stamp : Item → Item)
    (outcome : String → Except String (List Item)) (n : String) : List Item :=
  match outcome n with
  | .error _ => []
  | .ok items => items.map stamp

/-- A config entry is valid when both `name` and `url` are truthy. -/
def validSource (s : PySource) : Bool :=
  pyTruthy s.name && pyTruthy s.url

/-- The names of the valid entries of a source list (the keys that get a
`source_categories` entry). -/
def validNamesOf (sources : List PySource) : List String :=
  (sources.filter validSource).map fun s => s.name.getD ""

/-! ### Specification-side definitions used in claim statements -/

/-- Join a list of words with single spaces (the specification-side
description of collapsed whitespace: each maximal whitespace run of the
input becomes exactly one separator, ends trimmed). -/
def joinWords : List (List Char) → List Char
  | [] => []
  | w :: ws => w ++ (if ws.isEmpty then [] else ' ' :: joinWords ws)

/-- The collapsed form of a string as the specification describes it: its
whitespace-separated words joined by single spaces. -/
def collapsedSpec (t : String) : String :=
  String.mk (joinWords (wordsAux [] t.toList))

/-- One source section of the digest as the (amended) specification
describes it: a `**name**` header, one `text`/link block per record, and
the divider — with no extra line for an empty record list. -/
def formatSection (p : String × List ScrapedRec) : List String :=
  ("**" ++ p.1 ++ "**") ::
    (p.2.map fun it => it.text ++ "\n[URL](" ++ it.url ++ ")\n") ++ [DIVIDER]

/-- Specification-side form of the whole digest. -/
def specFormat (all_news : PyDict (List ScrapedRec)) : String :=
  String.intercalate "\n" ("Updates\n" :: all_news.entries.flatMap formatSection)

/-! ### Concrete inputs used by witnesses and counterexamples -/

/-- A selector-mode source named `A` in category `news`. -/
def c1SrcA : PySource :=
  { name := some "A", url := some "uA", css_selector := some "h1 a",
    mode := none, category := some "news" }

/-- A selector-mode source named `B` in category `news`. -/
def c1SrcB : PySource :=
  { name := some "B", url := some "uB", css_selector := some "h2 a",
    mode := none, category := some "news" }

/-- Task outcomes for the C1 witness: `A` raises, `B` returns one record. -/
def c1Outcome : String → Except String (List Item) := fun n =>
  if n = "A" then .error "boom"
  else .ok [⟨[("text", "t"), ("url", "u")]⟩]

/-- A record that carries its own `fetched_at`, as a custom strategy's
nested second fetch would produce. -/
def c2Item : Item := ⟨[("text", "t"), ("fetched_at", "2020-01-01T00:00:00Z")]⟩

/-- A single selector-mode source for the C2 counterexample. -/
def c2Src : PySource :=
  { name := some "S", url := some "uS", css_selector := some "p",
    mode := none, category := none }

/-- Outcome for the C2 counterexample: the task returns `c2Item`. -/
def c2Outcome : String → Except String (List Item) := fun _ => .ok [c2Item]

/-- A trace whose every attempt fails (a source that is down). -/
def failTrace : Nat → Except String String := fun _ => .error "boom"

/-- Eight elements matched by the selector, the first of which has
whitespace-only text. -/
def c5Elems : List SelElement :=
  ⟨" ", some "/a0"⟩ :: (List.range 7).map fun i =>
    ⟨"h" ++ toString i, some "/a"⟩

/-- A parser for the C5 counterexample returning the eight elements. -/
def c5Select : String → String → List SelElement := fun _ _ => c5Elems

/-- Eight elements with non-empty text for the C5 witness. -/
def c5wSelect : String → String → List SelElement := fun _ _ =>
  (List.range 8).map fun i => ⟨"h" ++ toString i, some "/a"⟩

/-- A trace that succeeds immediately with a fixed body. -/
def okTrace : Nat → Except String String := fun _ => .ok "<html>"

/-- A parser for the news strategies returning no articles. -/
def emptyNewsParse : String → String → List NewsArticle := fun _ _ => []

/-- One news page with a single 3-word headline linking to `/n1`. -/
def c10Parse : String → String → List NewsArticle := fun _ _ =>
  [some ⟨"short  headline here", some "/n1"⟩]

/-- `urljoin` model for concrete inputs: resolve into the site root. -/
def joinRel : String → String → String := fun base rel => base ++ rel

/-- The formatter input of the C8 counterexample: one source with an
empty record list. -/
def c8Input : PyDict (List ScrapedRec) := ⟨[("SrcA", [])]⟩

/-- The pattern `(Unknown)` of the C7 counterexample: a capture group
whose text coincides with the default value. -/
def c7Pat : Re := .group (litsRe "Unknown")

/-- A custom-mode source whose name `cmus` is registered, in category
`software`, for the C9 witness. -/
def c9SrcC : PySource :=
  { name := some "cmus", url := some "uC", css_selector := none,
    mode := some "custom", category := some "software" }

/-- The total number of source-name slots in an updates mapping, summed
over all category buckets. -/
def slotCount (u : PyDict (PyDict (List Item))) : Nat :=
  (u.entries.map fun p => p.2.entries.length).sum

/-! ### Dictionary lemmas -/

theorem getEntry_setEntries_self {α : Type} (l : List (String × α)) (k : String)
    (v : α) : getEntry (setEntries l k v) k = some v := by
  induction l with
  | nil => simp [setEntries, getEntry]
  | cons p rest ih =>
    by_cases h : p.1 = k
    · simp [setEntries, h, getEntry]
    · simp only [setEntries, if_neg h, getEntry, if_neg h]
      exact ih

theorem getEntry_setEntries_ne {α : Type} (l : List (String × α)) (k k' : String)
    (v : α) (h : k' ≠ k) : getEntry (setEntries l k v) k' = getEntry l k' := by
  induction l with
  | nil =>
    show getEntry [(k, v)] k' = none
    simp [getEntry, if_neg (Ne.symm h)]
  | cons p rest ih =>
    obtain ⟨pk, pv⟩ := p
    by_cases hp : pk = k
    · subst hp
      simp only [setEntries, if_pos rfl, getEntry,
        if_neg (fun hh : pk = k' => h hh.symm)]
    · simp only [setEntries, if_neg hp, getEntry]
      by_cases hq : pk = k'
      · simp [hq]
      · simp only [if_neg hq]
        exact ih

theorem keys_setEntries {α : Type} (l : List (String × α)) (k : String) (v : α) :
    (setEntries l k v).map Prod.fst =
      if k ∈ l.map Prod.fst then l.map Prod.fst else l.map Prod.fst ++ [k] := by
  induction l with
  | nil => simp [setEntries]
  | cons p rest ih =>
    by_cases hp : p.1 = k
    · simp [setEntries, hp]
    · have hcond : (k ∈ p.1 :: rest.map Prod.fst) ↔ (k ∈ rest.map Prod.fst) := by
        constructor
        · intro hh
          rcases List.mem_cons.mp hh with h | h
          · exact absurd h.symm hp
          · exact h
        · exact List.mem_cons_of_mem _
      simp only [setEntries, if_neg hp, List.map_cons, ih]
      by_cases hk : k ∈ rest.map Prod.fst
      · rw [if_pos hk, if_pos (hcond.mpr hk)]
      · rw [if_neg hk, if_neg (fun hh => hk (hcond.mp hh)), List.cons_append]

theorem keys_setEntries_mem {α : Type} (l : List (String × α)) (k k' : String)
    (v : α) (h : k' ∈ l.map Prod.fst) :
    k' ∈ (setEntries l k v).map Prod.fst := by
  rw [keys_setEntries]
  by_cases hk : k ∈ l.map Prod.fst
  · rw [if_pos hk]
    exact h
  · rw [if_neg hk]
    exact List.mem_append_left _ h

theorem keys_setEntries_self_mem {α : Type} (l : List (String × α)) (k : String)
    (v : α) : k ∈ (setEntries l k v).map Prod.fst := by
  rw [keys_setEntries]
  by_cases hk : k ∈ l.map Prod.fst
  · rw [if_pos hk]
    exact hk
  · rw [if_neg hk]
    exact List.mem_append_right _ (List.mem_singleton_self k)

theorem nodup_keys_setEntries {α : Type} (l : List (String × α)) (k : String)
    (v : α) (h : (l.map Prod.fst).Nodup) :
    ((setEntries l k v).map Prod.fst).Nodup := by
  rw [keys_setEntries]
  by_cases hk : k ∈ l.map Prod.fst
  · simpa [hk]
  · simpa [hk, List.nodup_append] using h

theorem getEntry_eq_none_of_not_mem {α : Type} (l : List (String × α)) (k : String)
    (h : k ∉ l.map Prod.fst) : getEntry l k = none := by
  induction l with
  | nil => rfl
  | cons p rest ih =>
    simp only [List.map_cons, List.mem_cons] at h
    push_neg at h
    simp only [getEntry, if_neg (fun hh : p.1 = k => h.1 hh.symm)]
    exact ih h.2

theorem PyDict.get?_set_self {α : Type} (d : PyDict α) (k : String) (v : α) :
    (d.set k v).get? k = some v :=
  getEntry_setEntries_self d.entries k v

theorem PyDict.get?_set_ne {α : Type} (d : PyDict α) (k k' : String) (v : α)
    (h : k' ≠ k) : (d.set k v).get? k' = d.get? k' :=
  getEntry_setEntries_ne d.entries k k' v h

/-! ### Assembly lemmas -/

/-- Effect of one iteration of the assembly loop on any slot. -/
theorem assemble_step (cats : PyDict String) (stamp : Item → Item)
    (outcome : String → Except String (List Item)) (n₀ : String)
    (acc : PyDict (PyDict (List Item))) (c n : String) :
    updG (assembleStep cats stamp outcome n₀ acc) c n =
    if n = n₀ ∧ c = cats.getD n₀ "uncategorized" then
      some (taskRecords stamp outcome n₀)
    else updG acc c n := by
  set cat₀ := cats.getD n₀ "uncategorized" with hcat₀
  set acc₁ := if (acc.get? cat₀).isSome then acc else acc.set cat₀ PyDict.empty
    with hacc₁
  set bucket := ((acc₁.get? cat₀).getD PyDict.empty) with hbucket
  have hform : assembleStep cats stamp outcome n₀ acc =
      acc₁.set cat₀ (bucket.set n₀ (taskRecords stamp outcome n₀)) := by
    rw [assembleStep, taskRecords]
    cases outcome n₀ <;> rfl
  have hacc₁_ne : ∀ c', c' ≠ cat₀ → acc₁.get? c' = acc.get? c' := by
    intro c' hc'
    rw [hacc₁]
    by_cases hs : (acc.get? cat₀).isSome
    · rw [if_pos hs]
    · rw [if_neg hs, PyDict.get?_set_ne _ _ _ _ hc']
  have hbucket_old : ∀ m, m ≠ n₀ → bucket.get? m = updG acc cat₀ m := by
    intro m _
    rw [hbucket, hacc₁]
    by_cases hs : (acc.get? cat₀).isSome
    · rw [if_pos hs]
      obtain ⟨b, hb⟩ := Option.isSome_iff_exists.mp hs
      simp [updG, hb]
    · rw [if_neg hs, PyDict.get?_set_self]
      have hnone : acc.get? cat₀ = none := Option.not_isSome_iff_eq_none.mp hs
      simp [updG, hnone]
      rfl
  rw [hform]
  set tr := taskRecords stamp outcome n₀ with htr
  have hbkt : ∀ m : String,
      updG (acc₁.set cat₀ (bucket.set n₀ tr)) cat₀ m = (bucket.set n₀ tr).get? m := by
    intro m
    show ((acc₁.set cat₀ (bucket.set n₀ tr)).get? cat₀).bind (fun bb => bb.get? m)
        = (bucket.set n₀ tr).get? m
    rw [PyDict.get?_set_self]
    rfl
  by_cases hc : c = cat₀
  · subst hc
    by_cases hn : n = n₀
    · subst hn
      rw [if_pos ⟨rfl, rfl⟩, hbkt, PyDict.get?_set_self]
    · rw [if_neg (fun hh => hn hh.1), hbkt, PyDict.get?_set_ne _ _ _ _ hn]
      exact hbucket_old n hn
  · rw [if_neg (fun hh => hc hh.2)]
    show ((acc₁.set cat₀ (bucket.set n₀ tr)).get? c).bind (fun bb => bb.get? n)
        = updG acc c n
    rw [PyDict.get?_set_ne _ _ _ _ hc, hacc₁_ne c hc]
    rfl

/-- Master lemma for the assembly loop: with distinct task names, the
final slot of each listed task holds exactly that task's own records, and
every other slot is untouched. -/
theorem assemble_master (cats : PyDict String) (stamp : Item → Item)
    (outcome : String → Except String (List Item)) :
    ∀ (names : List String), names.Nodup →
    ∀ (acc : PyDict (PyDict (List Item))) (c n : String),
    updG (assembleAux cats stamp outcome names acc) c n =
      if n ∈ names ∧ c = cats.getD n "uncategorized" then
        some (taskRecords stamp outcome n)
      else updG acc c n := by
  intro names
  induction names with
  | nil =>
    intro _ acc c n
    simp [assembleAux]
  | cons n₀ rest ih =>
    intro hnd acc c n
    have hnd' : rest.Nodup := (List.nodup_cons.mp hnd).2
    rw [show assembleAux cats stamp outcome (n₀ :: rest) acc
        = assembleAux cats stamp outcome rest (assembleStep cats stamp outcome n₀ acc)
        from rfl]
    rw [ih hnd' _ c n]
    by_cases h1 : n ∈ rest ∧ c = cats.getD n "uncategorized"
    · rw [if_pos h1, if_pos ⟨List.mem_cons_of_mem _ h1.1, h1.2⟩]
    · rw [if_neg h1, assemble_step]
      by_cases h2 : n = n₀ ∧ c = cats.getD n₀ "uncategorized"
      · obtain ⟨hn, hc⟩ := h2
        subst hn
        rw [if_pos ⟨rfl, hc⟩, if_pos ⟨List.mem_cons_self _ _, hc⟩]
      · have hneg : ¬(n ∈ n₀ :: rest ∧ c = cats.getD n "uncategorized") := by
          rintro ⟨hm, hc⟩
          rcases List.mem_cons.mp hm with h | h
          · subst h
            exact h2 ⟨rfl, hc⟩
          · exact h1 ⟨h, hc⟩
        rw [if_neg h2, if_neg hneg]

/-! ### Scheduling lemmas -/

/-- Shape of one scheduling step: each dict is either unchanged or has a
single key assigned. -/
theorem scheduleStep_shape (s : PySource) (tasks : PyDict TaskSpec)
    (cats : PyDict String) :
    ((scheduleStep s tasks cats).1 = tasks ∨
      ∃ v, (scheduleStep s tasks cats).1 = tasks.set (s.name.getD "") v) ∧
    ((scheduleStep s tasks cats).2 = cats ∨
      (scheduleStep s tasks cats).2 =
        cats.set (s.name.getD "") (s.category.getD "uncategorized")) := by
  rw [scheduleStep]
  by_cases hv : (pyTruthy s.name && pyTruthy s.url) = true
  · simp only [hv, Bool.not_true, Bool.false_eq_true, if_false]
    by_cases hm : s.mode.getD "default" = "custom"
    · rw [if_pos hm]
      by_cases hr : s.name.getD "" ∈ SCRAPER_REGISTRY
      · rw [if_pos hr]
        exact ⟨Or.inr ⟨_, rfl⟩, Or.inr rfl⟩
      · rw [if_neg hr]
        exact ⟨Or.inl rfl, Or.inr rfl⟩
    · rw [if_neg hm]
      by_cases hs : pyTruthy s.css_selector = true
      · rw [if_pos hs]
        exact ⟨Or.inr ⟨_, rfl⟩, Or.inr rfl⟩
      · rw [if_neg hs]
        exact ⟨Or.inl rfl, Or.inr rfl⟩
  · have hb : (pyTruthy s.name && pyTruthy s.url) = false := by
      cases h : (pyTruthy s.name && pyTruthy s.url)
      · rfl
      · exact absurd h hv
    simp only [hb, Bool.not_false, if_true]
    exact ⟨Or.inl trivial, Or.inl trivial⟩

/-- Precise effect of one scheduling step on a valid entry. -/
theorem scheduleStep_valid (s : PySource) (tasks : PyDict TaskSpec)
    (cats : PyDict String) (hv : validSource s = true) :
    (scheduleStep s tasks cats).2 =
      cats.set (s.name.getD "") (s.category.getD "uncategorized") ∧
    (isScheduledSpec s = true →
      (scheduleStep s tasks cats).1.get? (s.name.getD "") ≠ none) ∧
    (isScheduledSpec s = true →
      s.name.getD "" ∈ (scheduleStep s tasks cats).1.keys) := by
  rw [scheduleStep]
  rw [validSource] at hv
  simp only [hv, Bool.not_true, Bool.false_eq_true, if_false]
  by_cases hm : s.mode.getD "default" = "custom"
  · rw [if_pos hm]
    by_cases hr : s.name.getD "" ∈ SCRAPER_REGISTRY
    · rw [if_pos hr]
      refine ⟨rfl, fun _ => ?_, fun _ => ?_⟩
      · rw [PyDict.get?_set_self]
        exact Option.some_ne_none _
      · exact keys_setEntries_self_mem _ _ _
    · rw [if_neg hr]
      have hns : isScheduledSpec s = false := by
        rw [isScheduledSpec, if_pos hm]
        exact decide_eq_false hr
      refine ⟨rfl, fun h => ?_, fun h => ?_⟩ <;> rw [hns] at h <;> cases h
  · rw [if_neg hm]
    by_cases hs : pyTruthy s.css_selector = true
    · rw [if_pos hs]
      refine ⟨rfl, fun _ => ?_, fun _ => ?_⟩
      · rw [PyDict.get?_set_self]
        exact Option.some_ne_none _
      · exact keys_setEntries_self_mem _ _ _
    · rw [if_neg hs]
      have hns : isScheduledSpec s = false := by
        rw [isScheduledSpec, if_neg hm]
        exact (Bool.not_eq_true _).mp hs
      refine ⟨rfl, fun h => ?_, fun h => ?_⟩ <;> rw [hns] at h <;> cases h

/-- An invalid entry is skipped entirely. -/
theorem scheduleStep_invalid (s : PySource) (tasks : PyDict TaskSpec)
    (cats : PyDict String) (hv : validSource s = false) :
    scheduleStep s tasks cats = (tasks, cats) := by
  rw [scheduleStep]
  rw [validSource] at hv
  rw [if_pos (by rw [hv]; rfl)]

/-- The scheduling loop keeps the task-dict keys duplicate-free. -/
theorem schedule_tasks_nodup :
    ∀ (sources : List PySource) (tasks : PyDict TaskSpec) (cats : PyDict String),
    tasks.keys.Nodup → (scheduleAux sources tasks cats).1.keys.Nodup := by
  intro sources
  induction sources with
  | nil => intro tasks cats h; exact h
  | cons s rest ih =>
    intro tasks cats h
    rw [show scheduleAux (s :: rest) tasks cats
        = scheduleAux rest (scheduleStep s tasks cats).1 (scheduleStep s tasks cats).2
        from rfl]
    apply ih
    rcases (scheduleStep_shape s tasks cats).1 with heq | ⟨v, heq⟩
    · rw [heq]; exact h
    · rw [heq]
      exact nodup_keys_setEntries _ _ _ h

theorem validNamesOf_cons (s : PySource) (rest : List PySource) :
    validNamesOf (s :: rest) =
      if validSource s then (s.name.getD "") :: validNamesOf rest
      else validNamesOf rest := by
  rw [validNamesOf, validNamesOf, List.filter_cons]
  by_cases hv : validSource s = true
  · rw [if_pos hv, if_pos hv, List.map_cons]
  · rw [if_neg hv, if_neg hv]

/-- Later loop iterations do not disturb the category recorded for a name
that none of them carries, and only ever extend the task keys. -/
theorem schedule_preserve :
    ∀ (sources : List PySource) (tasks : PyDict TaskSpec) (cats : PyDict String)
      (n : String), n ∉ validNamesOf sources →
    (scheduleAux sources tasks cats).2.get? n = cats.get? n ∧
    (n ∈ tasks.keys → n ∈ (scheduleAux sources tasks cats).1.keys) := by
  intro sources
  induction sources with
  | nil => intro tasks cats n _; exact ⟨rfl, fun h => h⟩
  | cons s rest ih =>
    intro tasks cats n hn
    rw [validNamesOf_cons] at hn
    rw [show scheduleAux (s :: rest) tasks cats
        = scheduleAux rest (scheduleStep s tasks cats).1 (scheduleStep s tasks cats).2
        from rfl]
    by_cases hv : validSource s = true
    · rw [if_pos hv] at hn
      have hne : n ≠ s.name.getD "" := fun hh => hn (hh ▸ List.mem_cons_self _ _)
      have hrest : n ∉ validNamesOf rest := fun hh => hn (List.mem_cons_of_mem _ hh)
      obtain ⟨ih1, ih2⟩ := ih (scheduleStep s tasks cats).1 (scheduleStep s tasks cats).2 n hrest
      constructor
      · rw [ih1, (scheduleStep_valid s tasks cats hv).1,
          PyDict.get?_set_ne _ _ _ _ hne]
      · intro hmem
        apply ih2
        rcases (scheduleStep_shape s tasks cats).1 with heq | ⟨v, heq⟩
        · rw [heq]; exact hmem
        · rw [heq]
          exact keys_setEntries_mem _ _ _ _ hmem
    · have hvf : validSource s = false := by
        cases h : validSource s
        · rfl
        · exact absurd h hv
      rw [if_neg hv] at hn
      rw [scheduleStep_invalid s tasks cats hvf]
      exact ih tasks cats n hn

/-- With duplicate-free valid names, each valid source's category is the
one recorded for its name, and each scheduled source's name is a task
key. -/
theorem schedule_spec :
    ∀ (sources : List PySource), (validNamesOf sources).Nodup →
    ∀ (tasks : PyDict TaskSpec) (cats : PyDict String) (s : PySource),
    s ∈ sources → validSource s = true →
    (scheduleAux sources tasks cats).2.get? (s.name.getD "") =
      some (s.category.getD "uncategorized") ∧
    (isScheduledSpec s = true →
      s.name.getD "" ∈ (scheduleAux sources tasks cats).1.keys) := by
  intro sources
  induction sources with
  | nil => intro _ tasks cats s hs; cases hs
  | cons s₀ rest ih =>
    intro hnd tasks cats s hs hv
    rw [show scheduleAux (s₀ :: rest) tasks cats
        = scheduleAux rest (scheduleStep s₀ tasks cats).1 (scheduleStep s₀ tasks cats).2
        from rfl]
    rcases List.mem_cons.mp hs with heq | hmem
    · subst heq
      have hn : s.name.getD "" ∉ validNamesOf rest := by
        rw [validNamesOf_cons, if_pos hv] at hnd
        exact (List.nodup_cons.mp hnd).1
      obtain ⟨hp1, hp2⟩ := schedule_preserve rest (scheduleStep s tasks cats).1
        (scheduleStep s tasks cats).2 (s.name.getD "") hn
      obtain ⟨hv1, _, hv3⟩ := scheduleStep_valid s tasks cats hv
      constructor
      · rw [hp1, hv1, PyDict.get?_set_self]
      · intro hsched
        exact hp2 (hv3 hsched)
    · have hnd' : (validNamesOf rest).Nodup := by
        rw [validNamesOf_cons] at hnd
        by_cases hv₀ : validSource s₀ = true
        · rw [if_pos hv₀] at hnd
          exact (List.nodup_cons.mp hnd).2
        · rw [if_neg hv₀] at hnd
          exact hnd
      exact ih hnd' _ _ s hmem hv

/-- Unfolding of `get_updates` for a non-empty source list. -/
theorem get_updates_eq {T : Type} (parseIso : String → Option T)
    (isoZ : T → String) (kyivFmt : T → String) (utc_now : T)
    (outcome : String → Except String (List Item)) (sources : List PySource)
    (h : sources ≠ []) :
    get_updates parseIso isoZ kyivFmt utc_now outcome sources =
      .batch
        { fetched_at := isoZ utc_now
          fetched_at_kyiv := kyivFmt utc_now
          total_sources := (scheduleAux sources PyDict.empty PyDict.empty).1.keys.length
          categories :=
            (assembleAux (scheduleAux sources PyDict.empty PyDict.empty).2
              (stampItem parseIso isoZ kyivFmt utc_now) outcome
              (scheduleAux sources PyDict.empty PyDict.empty).1.keys
              PyDict.empty).keys }
        (assembleAux (scheduleAux sources PyDict.empty PyDict.empty).2
          (stampItem parseIso isoZ kyivFmt utc_now) outcome
          (scheduleAux sources PyDict.empty PyDict.empty).1.keys
          PyDict.empty) := by
  rw [get_updates]
  rw [if_neg (by
    intro hh
    exact h (List.isEmpty_iff.mp hh))]

/-- A slot lookup in an empty accumulator. -/
theorem updG_empty (c n : String) : updG PyDict.empty c n = none := rfl

/-- Lookup in a batch result is lookup in its updates mapping. -/
theorem updLookup_batch (m : Metadata) (u : PyDict (PyDict (List Item)))
    (c n : String) : (GetUpdatesResult.batch m u).updLookup c n = updG u c n := rfl

/-- The task keys of a schedule built from empty dicts are duplicate-free. -/
theorem schedule_keys_nodup (sources : List PySource) :
    (scheduleAux sources PyDict.empty PyDict.empty).1.keys.Nodup :=
  schedule_tasks_nodup sources PyDict.empty PyDict.empty List.nodup_nil

/-- C1: in every batch, a scheduled source whose task raises an exception
still appears in `updates` under its recorded category and name with an
empty record list, every other scheduled source's slot holds exactly the
records its own task produced (uniformly timestamp-stamped by the
aggregator), and the batch-level result is a normally returned
`batch` value, never a raised exception (the embedding is total). -/
theorem c1_failed_source_isolated {T : Type} (parseIso : String → Option T)
    (isoZ kyivFmt : T → String) (utc_now : T)
    (outcome : String → Except String (List Item)) (sources : List PySource)
    (f e : String)
    (hf : f ∈ (scheduleAux sources PyDict.empty PyDict.empty).1.keys)
    (herr : outcome f = .error e) :
    (∃ m u, get_updates parseIso isoZ kyivFmt utc_now outcome sources
      = .batch m u) ∧
    (get_updates parseIso isoZ kyivFmt utc_now outcome sources).updLookup
      ((scheduleAux sources PyDict.empty PyDict.empty).2.getD f "uncategorized") f
      = some [] ∧
    ∀ s items, s ∈ (scheduleAux sources PyDict.empty PyDict.empty).1.keys →
      s ≠ f → outcome s = .ok items →
      (get_updates parseIso isoZ kyivFmt utc_now outcome sources).updLookup
        ((scheduleAux sources PyDict.empty PyDict.empty).2.getD s "uncategorized") s
        = some (items.map (stampItem parseIso isoZ kyivFmt utc_now)) := by
  have h0 : sources ≠ [] := by
    intro hnil
    subst hnil
    cases hf
  rw [get_updates_eq parseIso isoZ kyivFmt utc_now outcome sources h0]
  refine ⟨⟨_, _, rfl⟩, ?_, ?_⟩
  · rw [updLookup_batch,
      assemble_master _ _ _ _ (schedule_keys_nodup sources) _ _ _,
      if_pos ⟨hf, rfl⟩]
    rw [taskRecords, herr]
  · intro s items hs _ hok
    rw [updLookup_batch,
      assemble_master _ _ _ _ (schedule_keys_nodup sources) _ _ _,
      if_pos ⟨hs, rfl⟩]
    rw [taskRecords, hok]

/-- Witness for C1 at a concrete two-source batch: source `A` fails,
source `B` succeeds; `A` is present-but-empty, `B` holds its own stamped
record. -/
theorem c1_failed_source_isolated_witness :
    (get_updates (T := String) (fun s => some s) id id "NOW" c1Outcome
      [c1SrcA, c1SrcB]).updLookup "news" "A" = some [] ∧
    (get_updates (T := String) (fun s => some s) id id "NOW" c1Outcome
      [c1SrcA, c1SrcB]).updLookup "news" "B"
      = some [⟨[("text", "t"), ("url", "u"), ("fetched_at", "NOW"),
               ("fetched_at_kyiv", "NOW")]⟩] := by
  obtain ⟨-, h2, h3⟩ := c1_failed_source_isolated (T := String) (fun s => some s)
    id id "NOW" c1Outcome [c1SrcA, c1SrcB] "A" "boom" (by decide) rfl
  constructor
  · exact h2
  · exact h3 "B" [⟨[("text", "t"), ("url", "u")]⟩] (by decide) (by decide) rfl

/-- Counterexample to C2: a record that carries its own
`fetched_at = "2020-01-01T00:00:00Z"` does NOT keep it — the aggregator
overwrites the field with the shared batch instant (here `"NOW"`), and
only `fetched_at_kyiv` is computed from the original embedded instant. -/
theorem c2_original_fetched_at_cex :
    c2Item.get? "fetched_at" = some "2020-01-01T00:00:00Z" ∧
    (get_updates (T := String) (fun s => some s) id (fun s => "kyiv:" ++ s)
        "NOW" c2Outcome [c2Src]).updLookup "uncategorized" "S"
      = some [⟨[("text", "t"), ("fetched_at", "NOW"),
               ("fetched_at_kyiv", "kyiv:2020-01-01T00:00:00Z")]⟩] ∧
    ("NOW" : String) ≠ "2020-01-01T00:00:00Z" := by
  refine ⟨rfl, rfl, by decide⟩

/-- C2 (amended): for every successful task, the slot holds the task's
records stamped by `stampItem`, and for each such record the output
`fetched_at` is ALWAYS the shared batch instant (even when the record
carried its own), while `fetched_at_kyiv` localizes the record's own
embedded instant when present (falling back to the shared instant when
the embedded value fails to parse or is absent). -/
theorem c2_stamping {T : Type} (parseIso : String → Option T)
    (isoZ kyivFmt : T → String) (utc_now : T)
    (outcome : String → Except String (List Item)) (sources : List PySource)
    (s : String) (items : List Item)
    (hs : s ∈ (scheduleAux sources PyDict.empty PyDict.empty).1.keys)
    (hok : outcome s = .ok items) :
    (get_updates parseIso isoZ kyivFmt utc_now outcome sources).updLookup
      ((scheduleAux sources PyDict.empty PyDict.empty).2.getD s "uncategorized") s
      = some (items.map (stampItem parseIso isoZ kyivFmt utc_now)) ∧
    ∀ item ∈ items,
      (stampItem parseIso isoZ kyivFmt utc_now item).get? "fetched_at"
        = some (isoZ utc_now) ∧
      (stampItem parseIso isoZ kyivFmt utc_now item).get? "fetched_at_kyiv"
        = some (kyivFmt (match item.get? "fetched_at" with
            | some s0 => (parseIso s0).getD utc_now
            | none => utc_now)) := by
  have h0 : sources ≠ [] := by
    intro hnil
    subst hnil
    cases hs
  constructor
  · rw [get_updates_eq parseIso isoZ kyivFmt utc_now outcome sources h0,
      updLookup_batch,
      assemble_master _ _ _ _ (schedule_keys_nodup sources) _ _ _,
      if_pos ⟨hs, rfl⟩]
    rw [taskRecords, hok]
  · intro item _
    constructor
    · rw [stampItem]
      rw [PyDict.get?_set_ne _ _ _ _ (by decide), PyDict.get?_set_self]
    · rw [stampItem]
      rw [PyDict.get?_set_self]

/-- Witness for C2 at a concrete input: the record carrying
`fetched_at = "2020-01-01T00:00:00Z"` leaves the aggregator with
`fetched_at = "NOW"` and `fetched_at_kyiv` localized from the original. -/
theorem c2_stamping_witness :
    (get_updates (T := String) (fun s => some s) id (fun s => "kyiv:" ++ s)
        "NOW" c2Outcome [c2Src]).updLookup "uncategorized" "S"
      = some [⟨[("text", "t"), ("fetched_at", "NOW"),
               ("fetched_at_kyiv", "kyiv:2020-01-01T00:00:00Z")]⟩] ∧
    (stampItem (T := String) (fun s => some s) id (fun s => "kyiv:" ++ s)
        "NOW" c2Item).get? "fetched_at" = some "NOW" ∧
    (stampItem (T := String) (fun s => some s) id (fun s => "kyiv:" ++ s)
        "NOW" c2Item).get? "fetched_at_kyiv"
      = some "kyiv:2020-01-01T00:00:00Z" := by
  obtain ⟨h1, h2⟩ := c2_stamping (T := String) (fun s => some s) id
    (fun s => "kyiv:" ++ s) "NOW" c2Outcome [c2Src] "S" [c2Item] (by decide) rfl
  obtain ⟨h3, h4⟩ := h2 c2Item (List.mem_singleton_self _)
  exact ⟨h1, h3, h4⟩

/-- Counterexample to C4: with no sources configured, `get_updates`
returns the bare empty dict `{}`, which is not a value of the
`{"metadata": ..., "updates": ...}` shape. -/
theorem c4_empty_config_cex :
    get_updates (T := String) (fun s => some s) id id "NOW"
      (fun _ => .ok []) [] = .emptyDict ∧
    ¬ ∃ (m : Metadata) (u : PyDict (PyDict (List Item))),
        get_updates (T := String) (fun s => some s) id id "NOW"
          (fun _ => .ok []) [] = .batch m u := by
  refine ⟨rfl, ?_⟩
  rintro ⟨m, u, h⟩
  exact GetUpdatesResult.noConfusion h

/-- C4 (amended): an empty configured source list makes `get_updates`
return the bare empty dict `{}` (no `metadata` or `updates` keys), and
the function is total, so nothing is raised. -/
theorem c4_empty_config {T : Type} (parseIso : String → Option T)
    (isoZ kyivFmt : T → String) (utc_now : T)
    (outcome : String → Except String (List Item)) :
    get_updates parseIso isoZ kyivFmt utc_now outcome [] = .emptyDict := rfl

/-- A `filterMap` whose function succeeds on every element keeps the
length. -/
theorem length_filterMap_all {α β : Type} (l : List α) (f : α → Option β)
    (h : ∀ x ∈ l, (f x).isSome) : (l.filterMap f).length = l.length := by
  induction l with
  | nil => rfl
  | cons x xs ih =>
    rw [List.filterMap_cons]
    obtain ⟨y, hy⟩ := Option.isSome_iff_exists.mp (h x (List.mem_cons_self _ _))
    rw [hy, List.length_cons, List.length_cons,
      ih (fun z hz => h z (List.mem_cons_of_mem _ hz))]

/-- Counterexample to C3: the news strategies have no `try`/`except`
boundary — a failing fetch propagates out of `bbc` as a raised exception
instead of becoming an empty sequence. -/
theorem c3_news_propagates_cex :
    bbc failTrace emptyNewsParse joinRel "u" = .error "boom" ∧
    ¬ ∃ recs, bbc failTrace emptyNewsParse joinRel "u" = .ok recs := by
  refine ⟨rfl, ?_⟩
  rintro ⟨recs, h⟩
  rw [show bbc failTrace emptyNewsParse joinRel "u" = Except.error "boom" from rfl]
    at h
  exact Except.noConfusion h

/-- C3 (amended): the generic selector strategy and the software
strategies (represented by the cited `fetch_cmus_stable_version`) catch
every exception at the strategy boundary and return an empty sequence,
but the news strategies `bbc`, `dw`, `cnn`, `irishtimes` (all via
`fetch_news`) propagate a fetch failure to the caller, where only the
aggregator's `gather(..., return_exceptions=True)` converts it into an
empty slot. -/
theorem c3_strategy_error_policy :
    (∀ (trace : Nat → Except String String)
       (select : String → String → List SelElement)
       (urljoin2 : String → String → String) (url css e : String),
       fetch_with_retry trace = .error e →
       fetch_by_selector trace select urljoin2 url css = []) ∧
    (∀ (trace : Nat → Except String String) (parse : String → CmusDoc)
       (nowIso url e : String),
       fetch_with_retry trace = .error e →
       fetch_cmus_stable_version trace parse nowIso url = []) ∧
    (∀ (trace : Nat → Except String String)
       (parse : String → String → List NewsArticle)
       (urljoin2 : String → String → String) (url e : String),
       trace 0 = .error e →
       bbc trace parse urljoin2 url = .error e ∧
       dw trace parse urljoin2 url = .error e ∧
       cnn trace parse urljoin2 url = .error e ∧
       irishtimes trace parse urljoin2 url = .error e) := by
  refine ⟨?_, ?_, ?_⟩
  · intro trace select urljoin2 url css e herr
    rw [fetch_by_selector, herr]
  · intro trace parse nowIso url e herr
    rw [fetch_cmus_stable_version, herr]
  · intro trace parse urljoin2 url e herr
    refine ⟨?_, ?_, ?_, ?_⟩ <;>
      first
      | (rw [bbc, fetch_news, herr])
      | (rw [dw, fetch_news, herr])
      | (rw [cnn, fetch_news, herr])
      | (rw [irishtimes, fetch_news, herr])

/-- Witness for C3 at a concrete failing fetch: the selector and cmus
strategies return `[]`, the four news strategies return the raised
error. -/
theorem c3_strategy_error_policy_witness :
    fetch_by_selector failTrace (fun _ _ => []) joinRel "u" "q" = [] ∧
    fetch_cmus_stable_version failTrace (fun _ => ⟨none⟩) "NOW" "u" = [] ∧
    bbc failTrace emptyNewsParse joinRel "u" = .error "boom" ∧
    dw failTrace emptyNewsParse joinRel "u" = .error "boom" ∧
    cnn failTrace emptyNewsParse joinRel "u" = .error "boom" ∧
    irishtimes failTrace emptyNewsParse joinRel "u" = .error "boom" := by
  obtain ⟨h1, h2, h3⟩ := c3_strategy_error_policy
  obtain ⟨hb, hd, hc, hi⟩ := h3 failTrace emptyNewsParse joinRel "u" "boom" rfl
  exact ⟨h1 failTrace (fun _ _ => []) joinRel "u" "q" "boom" rfl,
    h2 failTrace (fun _ => ⟨none⟩) "NOW" "u" "boom" rfl, hb, hd, hc, hi⟩

/-- Counterexample to C5: eight matched elements, but the first has
whitespace-only text; the non-empty-text filter runs after the
`[:MAX_HEADLINES]` cap, so only 4 records come back, not 5. -/
theorem c5_cap_cex :
    (c5Select "<html>" "q").length = 8 ∧
    (fetch_by_selector okTrace c5Select joinRel "https://x" "q").length = 4 ∧
    (fetch_by_selector okTrace c5Select joinRel "https://x" "q").length ≠ 5 := by
  decide

/-- C5 (amended): the generic selector strategy returns exactly
`MAX_HEADLINES` (5) records whenever the fetch succeeds, the selector
matches at least 5 elements (e.g. 8), and each of the first five matched
elements has non-empty text. -/
theorem c5_selector_cap (trace : Nat → Except String String)
    (select : String → String → List SelElement)
    (urljoin2 : String → String → String) (url css html : String)
    (hfetch : fetch_with_retry trace = .ok html)
    (h5 : MAX_HEADLINES ≤ (select html css).length)
    (hne : ∀ el ∈ (select html css).take MAX_HEADLINES, pyStrip el.text ≠ "") :
    (fetch_by_selector trace select urljoin2 url css).length = MAX_HEADLINES := by
  rw [fetch_by_selector, hfetch]
  rw [length_filterMap_all _ _ (fun el hel => ?_), List.length_take]
  · exact Nat.min_eq_left h5
  · rw [if_pos (hne el hel)]
    rfl

/-- Witness for C5 at a concrete page with 8 matched elements, all with
non-empty text: exactly 5 records. -/
theorem c5_selector_cap_witness :
    (c5wSelect "<html>" "q").length = 8 ∧
    (fetch_by_selector okTrace c5wSelect joinRel "https://x" "q").length
      = MAX_HEADLINES :=
  ⟨by decide,
    c5_selector_cap okTrace c5wSelect joinRel "https://x" "q" "<html>" rfl
      (by decide) (by decide)⟩

/-- Counterexample to C8: a source with an empty record list produces a
section with no "Failed to fetch info." line anywhere in the current
Formatter's output (that line exists only in the legacy
`scrap_old.py`). -/
theorem c8_failed_line_cex :
    c8Input.get? "SrcA" = some [] ∧
    ¬ ("Failed to fetch info.".toList <:+: (format_output c8Input).toList) := by
  decide

/-- C8 (amended): the Formatter emits, for each source in order, a
`**name**` header line, then one `text` plus markdown-link block per
record, each section closed by the fixed 20-character divider; a source
with no records gets only its header directly followed by the divider —
there is no "Failed to fetch info." line. -/
theorem c8_format_spec (all_news : PyDict (List ScrapedRec)) :
    format_output all_news = specFormat all_news ∧ DIVIDER.length = 20 := by
  constructor
  · rw [format_output, specFormat]
    have key : ∀ (entries : List (String × List ScrapedRec)) (parts : List String),
        entries.foldl
          (fun parts p =>
            (parts ++ ["**" ++ p.1 ++ "**"]
              ++ p.2.map fun it => it.text ++ "\n[URL](" ++ it.url ++ ")\n")
            ++ [DIVIDER]) parts
        = parts ++ entries.flatMap formatSection := by
      intro entries
      induction entries with
      | nil => intro parts; rw [List.foldl_nil, List.flatMap_nil, List.append_nil]
      | cons p es ih =>
        intro parts
        rw [List.foldl_cons, ih, List.flatMap_cons]
        rw [formatSection]
        simp [List.append_assoc]
    rw [key]
    rfl
  · decide

/-- C10: a news strategy returns at most 5 records; each record comes
from an `<a>` link of one of the first five article divs, its text is the
first at-most-15 words of the headline with `"..."` appended exactly when
the headline has more than 15 words, and its url is the link's `href`
resolved against the page url; the result depends only on attempt 0 of
the trace — a single fetch, no retry. -/
theorem c10_news_shape (trace : Nat → Except String String)
    (parse : String → String → List NewsArticle)
    (urljoin2 : String → String → String) (url class_name html : String)
    (hok : trace 0 = .ok html) :
    ∃ recs, fetch_news trace parse urljoin2 url class_name 15 "..." = .ok recs ∧
      recs.length ≤ 5 ∧
      (∀ r ∈ recs, ∃ link : NewsLink,
        (some link) ∈ (parse html class_name).take 5 ∧
        r.text = (if 15 < (pyWords link.text).length
          then " ".intercalate ((pyWords link.text).take 15) ++ "..."
          else " ".intercalate (pyWords link.text)) ∧
        r.url = urljoin2 url (link.href.getD "#")) ∧
      (∀ trace' : Nat → Except String String, trace' 0 = trace 0 →
        fetch_news trace' parse urljoin2 url class_name 15 "..."
          = fetch_news trace parse urljoin2 url class_name 15 "...") := by
  refine ⟨_, by rw [fetch_news, hok], ?_, ?_, ?_⟩
  · exact le_trans (List.length_filterMap_le _ _) (List.length_take_le _ _)
  · intro r hr
    obtain ⟨a, ha, hfa⟩ := List.mem_filterMap.mp hr
    cases a with
    | none =>
      exact Option.noConfusion hfa
    | some link =>
      have hA : r.text =
          (if ((pyWords link.text).take 15).length < (pyWords link.text).length
            then " ".intercalate ((pyWords link.text).take 15) ++ "..."
            else " ".intercalate ((pyWords link.text).take 15)) := by
        rw [← Option.some_inj.mp hfa]
      have hU : r.url = urljoin2 url (link.href.getD "#") := by
        rw [← Option.some_inj.mp hfa]
      refine ⟨link, ha, ?_, hU⟩
      rw [hA]
      by_cases hlen : 15 < (pyWords link.text).length
      · rw [if_pos hlen, if_pos (by rw [List.length_take]; omega)]
      · rw [if_neg hlen, if_neg (by rw [List.length_take]; omega),
          List.take_of_length_le (by omega)]
  · intro trace' htrace'
    rw [fetch_news, fetch_news, htrace', hok]

/-- Witness for C10 at a concrete page with one three-word headline. -/
theorem c10_news_shape_witness :
    ∃ recs, fetch_news okTrace c10Parse joinRel "https://x" "cls" 15 "..."
        = .ok recs ∧
      recs.length ≤ 5 ∧
      (∀ r ∈ recs, ∃ link : NewsLink,
        (some link) ∈ (c10Parse "<html>" "cls").take 5 ∧
        r.text = (if 15 < (pyWords link.text).length
          then " ".intercalate ((pyWords link.text).take 15) ++ "..."
          else " ".intercalate (pyWords link.text)) ∧
        r.url = joinRel "https://x" (link.href.getD "#")) ∧
      (∀ trace' : Nat → Except String String, trace' 0 = okTrace 0 →
        fetch_news trace' c10Parse joinRel "https://x" "cls" 15 "..."
          = fetch_news okTrace c10Parse joinRel "https://x" "cls" 15 "...") :=
  c10_news_shape okTrace c10Parse joinRel "https://x" "cls" "<html>" rfl

/-- Inserting a fresh key adds one entry. -/
theorem length_setEntries_none {α : Type} (l : List (String × α)) (k : String)
    (v : α) (h : getEntry l k = none) :
    (setEntries l k v).length = l.length + 1 := by
  induction l with
  | nil => rfl
  | cons p rest ih =>
    rw [getEntry] at h
    by_cases hp : p.1 = k
    · rw [if_pos hp] at h
      exact Option.noConfusion h
    · rw [if_neg hp] at h
      rw [setEntries, if_neg hp, List.length_cons, List.length_cons, ih h]

/-- Value-sum effect of assigning a fresh key. -/
theorem sum_setEntries_none {α : Type} (f : α → Nat) (l : List (String × α))
    (k : String) (v : α) (h : getEntry l k = none) :
    ((setEntries l k v).map fun p => f p.2).sum
      = (l.map fun p => f p.2).sum + f v := by
  induction l with
  | nil => simp [setEntries]
  | cons p rest ih =>
    obtain ⟨pk, pv⟩ := p
    rw [getEntry] at h
    by_cases hp : pk = k
    · rw [if_pos hp] at h
      exact Option.noConfusion h
    · rw [if_neg hp] at h
      rw [setEntries, if_neg hp, List.map_cons, List.map_cons, List.sum_cons,
        List.sum_cons, ih h]
      omega

/-- Value-sum effect of overwriting an existing key. -/
theorem sum_setEntries_some {α : Type} (f : α → Nat) (l : List (String × α))
    (k : String) (v b : α) (h : getEntry l k = some b) :
    ((setEntries l k v).map fun p => f p.2).sum + f b
      = (l.map fun p => f p.2).sum + f v := by
  induction l with
  | nil => exact Option.noConfusion h
  | cons p rest ih =>
    obtain ⟨pk, pv⟩ := p
    rw [getEntry] at h
    by_cases hp : pk = k
    · rw [if_pos hp] at h
      obtain rfl : pv = b := Option.some_inj.mp h
      rw [setEntries, if_pos hp, List.map_cons, List.map_cons, List.sum_cons,
        List.sum_cons]
      dsimp only
      omega
    · rw [if_neg hp] at h
      rw [setEntries, if_neg hp, List.map_cons, List.map_cons, List.sum_cons,
        List.sum_cons]
      have := ih h
      omega

/-- One assembly iteration adds exactly one slot when the task's name is
fresh in its category bucket. -/
theorem assembleStep_slotCount (cats : PyDict String) (stamp : Item → Item)
    (outcome : String → Except String (List Item)) (n₀ : String)
    (acc : PyDict (PyDict (List Item)))
    (hfresh : updG acc (cats.getD n₀ "uncategorized") n₀ = none) :
    slotCount (assembleStep cats stamp outcome n₀ acc) = slotCount acc + 1 := by
  set cat₀ := cats.getD n₀ "uncategorized" with hcat₀
  set acc₁ := if (acc.get? cat₀).isSome then acc else acc.set cat₀ PyDict.empty
    with hacc₁
  set bucket := ((acc₁.get? cat₀).getD PyDict.empty) with hbucket
  have hform : assembleStep cats stamp outcome n₀ acc =
      acc₁.set cat₀ (bucket.set n₀ (taskRecords stamp outcome n₀)) := by
    rw [assembleStep, taskRecords]
    cases outcome n₀ <;> rfl
  have hacc₁_get : acc₁.get? cat₀ = some bucket := by
    by_cases hs : (acc.get? cat₀).isSome
    · have h1 : acc₁ = acc := by rw [hacc₁, if_pos hs]
      obtain ⟨b, hb⟩ := Option.isSome_iff_exists.mp hs
      rw [hbucket, h1, hb]
      rfl
    · have h1 : acc₁ = acc.set cat₀ PyDict.empty := by rw [hacc₁, if_neg hs]
      rw [hbucket, h1, PyDict.get?_set_self]
      rfl
  have hsum₁ : slotCount acc₁ = slotCount acc := by
    by_cases hs : (acc.get? cat₀).isSome
    · have h1 : acc₁ = acc := by rw [hacc₁, if_pos hs]
      rw [h1]
    · have h1 : acc₁ = acc.set cat₀ PyDict.empty := by rw [hacc₁, if_neg hs]
      have hnone : getEntry acc.entries cat₀ = none :=
        Option.not_isSome_iff_eq_none.mp hs
      rw [h1]
      show slotCount ⟨setEntries acc.entries cat₀ PyDict.empty⟩ = slotCount acc
      rw [slotCount, slotCount]
      rw [sum_setEntries_none (fun b => b.entries.length) acc.entries cat₀
        PyDict.empty hnone]
      rfl
  have hbn : bucket.get? n₀ = none := by
    by_cases hs : (acc.get? cat₀).isSome
    · have h1 : acc₁ = acc := by rw [hacc₁, if_pos hs]
      obtain ⟨b, hb⟩ := Option.isSome_iff_exists.mp hs
      rw [updG, hb] at hfresh
      rw [hbucket, h1, hb]
      exact hfresh
    · have h1 : acc₁ = acc.set cat₀ PyDict.empty := by rw [hacc₁, if_neg hs]
      rw [hbucket, h1, PyDict.get?_set_self]
      rfl
  have hblen : (bucket.set n₀ (taskRecords stamp outcome n₀)).entries.length
      = bucket.entries.length + 1 :=
    length_setEntries_none bucket.entries n₀ _ hbn
  rw [hform]
  have hsum := sum_setEntries_some (fun b => b.entries.length) acc₁.entries cat₀
    (bucket.set n₀ (taskRecords stamp outcome n₀)) bucket hacc₁_get
  show slotCount ⟨setEntries acc₁.entries cat₀
    (bucket.set n₀ (taskRecords stamp outcome n₀))⟩ = slotCount acc + 1
  rw [slotCount, slotCount] at *
  rw [← hsum₁]
  dsimp only at hsum ⊢
  omega

/-- The assembly loop over duplicate-free fresh names adds one slot per
name. -/
theorem assemble_slotCount (cats : PyDict String) (stamp : Item → Item)
    (outcome : String → Except String (List Item)) :
    ∀ (names : List String) (acc : PyDict (PyDict (List Item))),
    names.Nodup →
    (∀ n ∈ names, updG acc (cats.getD n "uncategorized") n = none) →
    slotCount (assembleAux cats stamp outcome names acc)
      = slotCount acc + names.length := by
  intro names
  induction names with
  | nil => intro acc _ _; rfl
  | cons n₀ rest ih =>
    intro acc hnd hfresh
    rw [show assembleAux cats stamp outcome (n₀ :: rest) acc
        = assembleAux cats stamp outcome rest (assembleStep cats stamp outcome n₀ acc)
        from rfl]
    have hstep := assembleStep_slotCount cats stamp outcome n₀ acc
      (hfresh n₀ (List.mem_cons_self _ _))
    have hrest : ∀ n ∈ rest,
        updG (assembleStep cats stamp outcome n₀ acc)
          (cats.getD n "uncategorized") n = none := by
      intro n hn
      rw [assemble_step]
      have hne : n ≠ n₀ := by
        intro hh
        subst hh
        exact (List.nodup_cons.mp hnd).1 hn
      rw [if_neg (fun hh => hne hh.1)]
      exact hfresh n (List.mem_cons_of_mem _ hn)
    rw [ih _ (List.nodup_cons.mp hnd).2 hrest, hstep, List.length_cons]
    omega

/-- C9: in every non-empty batch (under the data model's invariant that
source names are unique keys), each scheduled source's name appears in
`updates` under exactly one category — the category of its `SourceSpec`,
defaulting to `"uncategorized"` — `metadata.total_sources` equals the
total number of source-name slots summed over all categories, and
`metadata.categories` is exactly the list of category keys of `updates`,
independently of which tasks succeeded or failed. -/
theorem c9_batch_invariants {T : Type} (parseIso : String → Option T)
    (isoZ kyivFmt : T → String) (utc_now : T)
    (outcome : String → Except String (List Item)) (sources : List PySource)
    (h0 : sources ≠ []) (hnd : (validNamesOf sources).Nodup) :
    ∃ m u, get_updates parseIso isoZ kyivFmt utc_now outcome sources
        = .batch m u ∧
      (∀ s ∈ sources, validSource s = true → isScheduledSpec s = true →
        (∃ b, u.get? (s.category.getD "uncategorized") = some b ∧
          (b.get? (s.name.getD "")).isSome) ∧
        (∀ c, (∃ b, u.get? c = some b ∧ (b.get? (s.name.getD "")).isSome) →
          c = s.category.getD "uncategorized")) ∧
      m.total_sources = slotCount u ∧
      m.categories = u.keys := by
  rw [get_updates_eq parseIso isoZ kyivFmt utc_now outcome sources h0]
  refine ⟨_, _, rfl, ?_, ?_, rfl⟩
  · intro s hs hv hsched
    obtain ⟨hcat, hkeys⟩ :=
      schedule_spec sources hnd PyDict.empty PyDict.empty s hs hv
    have hgetD : (scheduleAux sources PyDict.empty PyDict.empty).2.getD
        (s.name.getD "") "uncategorized" = s.category.getD "uncategorized" := by
      rw [PyDict.getD, hcat]
      rfl
    have hmaster := assemble_master
      (scheduleAux sources PyDict.empty PyDict.empty).2
      (stampItem parseIso isoZ kyivFmt utc_now) outcome
      (scheduleAux sources PyDict.empty PyDict.empty).1.keys
      (schedule_keys_nodup sources) PyDict.empty
    constructor
    · have h1 := hmaster (s.category.getD "uncategorized") (s.name.getD "")
      rw [if_pos ⟨hkeys hsched, hgetD.symm⟩] at h1
      obtain ⟨b, hb1, hb2⟩ := Option.bind_eq_some.mp h1
      exact ⟨b, hb1, by rw [hb2]; rfl⟩
    · intro c ⟨b, hb1, hb2⟩
      have h1 := hmaster c (s.name.getD "")
      by_cases hcond : (s.name.getD "")
            ∈ (scheduleAux sources PyDict.empty PyDict.empty).1.keys
          ∧ c = (scheduleAux sources PyDict.empty PyDict.empty).2.getD
            (s.name.getD "") "uncategorized"
      · rw [← hgetD]
        exact hcond.2
      · rw [if_neg hcond, updG_empty] at h1
        rw [updG, hb1] at h1
        obtain ⟨y, hy⟩ := Option.isSome_iff_exists.mp hb2
        rw [show (some b).bind (fun bb => bb.get? (s.name.getD "")) =
          b.get? (s.name.getD "") from rfl, hy] at h1
        exact Option.noConfusion h1
  · rw [assemble_slotCount _ _ _ _ PyDict.empty (schedule_keys_nodup sources)
      (fun n _ => updG_empty _ _),
      show slotCount PyDict.empty = 0 from rfl, Nat.zero_add]

/-- Witness for C9 at a concrete two-source batch (a selector source in
the default category and a registered custom source in `software`). -/
theorem c9_batch_invariants_witness :
    ∃ m u, get_updates (T := String) (fun s => some s) id id "NOW" c2Outcome
        [c2Src, c9SrcC] = .batch m u ∧
      (∀ s ∈ [c2Src, c9SrcC], validSource s = true → isScheduledSpec s = true →
        (∃ b, u.get? (s.category.getD "uncategorized") = some b ∧
          (b.get? (s.name.getD "")).isSome) ∧
        (∀ c, (∃ b, u.get? c = some b ∧ (b.get? (s.name.getD "")).isSome) →
          c = s.category.getD "uncategorized")) ∧
      m.total_sources = slotCount u ∧
      m.categories = u.keys :=
  c9_batch_invariants (T := String) (fun s => some s) id id "NOW" c2Outcome
    [c2Src, c9SrcC] (by decide) (by decide)

/-- The head of what `dropWhile` leaves does not satisfy the predicate. -/
theorem head_dropWhile_false (p : Char → Bool) :
    ∀ (l : List Char) (c : Char), (l.dropWhile p).head? = some c → p c = false := by
  intro l
  induction l with
  | nil => intro c h; exact Option.noConfusion h
  | cons d ds ih =>
    intro c h
    by_cases hd : p d = true
    · rw [List.dropWhile_cons, if_pos hd] at h
      exact ih c h
    · rw [List.dropWhile_cons, if_neg hd] at h
      obtain rfl : d = c := Option.some_inj.mp h
      cases hpd : p d
      · rfl
      · exact absurd hpd hd

/-- An element named by `getLast?` is a member. -/
theorem mem_of_getLast?_eq : ∀ (l : List Char) (c : Char),
    l.getLast? = some c → c ∈ l := by
  intro l
  induction l with
  | nil => intro c h; exact Option.noConfusion h
  | cons d ds ih =>
    intro c h
    cases ds with
    | nil =>
      obtain rfl : d = c := Option.some_inj.mp h
      exact List.mem_singleton_self _
    | cons x xs =>
      rw [List.getLast?_cons_cons] at h
      exact List.mem_cons_of_mem _ (ih c h)

/-- After a whitespace run has started, collapsing continues on the rest
of the run's tail. -/
theorem subWsAux_true_eq (l : List Char) :
    subWsAux true l = subWsAux false (l.dropWhile isPyWs) := by
  induction l with
  | nil => rfl
  | cons c cs ih =>
    by_cases hc : isPyWs c = true
    · rw [List.dropWhile_cons, if_pos hc]
      rw [show subWsAux true (c :: cs) = subWsAux true cs from by
        rw [subWsAux, if_pos hc, if_pos rfl]]
      exact ih
    · rw [List.dropWhile_cons, if_neg hc]
      rw [show subWsAux true (c :: cs) = c :: subWsAux false cs from by
        rw [subWsAux, if_neg hc]]
      rw [show subWsAux false (c :: cs) = c :: subWsAux false cs from by
        rw [subWsAux, if_neg hc]]

/-- Word splitting ignores leading whitespace. -/
theorem wordsAux_dropWhile (l : List Char) :
    wordsAux [] (l.dropWhile isPyWs) = wordsAux [] l := by
  induction l with
  | nil => rfl
  | cons c cs ih =>
    by_cases hc : isPyWs c = true
    · rw [List.dropWhile_cons, if_pos hc, ih]
      rw [show wordsAux [] (c :: cs) = wordsAux [] cs from by
        rw [wordsAux, if_pos hc]
        rfl]
    · rw [List.dropWhile_cons, if_neg hc]

/-- Word splitting of an all-whitespace list just flushes the
accumulator. -/
theorem wordsAux_all_ws : ∀ (w acc : List Char), (∀ c ∈ w, isPyWs c = true) →
    wordsAux acc w = if acc.isEmpty then [] else [acc.reverse] := by
  intro w
  induction w with
  | nil => intro acc _; rfl
  | cons c cs ih =>
    intro acc h
    have hc : isPyWs c = true := h c (List.mem_cons_self _ _)
    have hcs : ∀ d ∈ cs, isPyWs d = true := fun d hd => h d (List.mem_cons_of_mem _ hd)
    by_cases hacc : acc.isEmpty = true
    · rw [wordsAux, if_pos hc, if_pos hacc, ih [] hcs, if_pos hacc]
      rfl
    · rw [wordsAux, if_pos hc, if_neg hacc, ih [] hcs, if_neg hacc]
      rfl

/-- Trailing whitespace does not change the word split. -/
theorem wordsAux_append_ws : ∀ (x w acc : List Char),
    (∀ c ∈ w, isPyWs c = true) → wordsAux acc (x ++ w) = wordsAux acc x := by
  intro x
  induction x with
  | nil =>
    intro w acc h
    rw [List.nil_append, wordsAux_all_ws w acc h]
    rfl
  | cons c cs ih =>
    intro w acc h
    by_cases hc : isPyWs c = true
    · by_cases hacc : acc.isEmpty = true
      · rw [List.cons_append, wordsAux, if_pos hc, if_pos hacc, ih w [] h,
          wordsAux, if_pos hc, if_pos hacc]
      · rw [List.cons_append, wordsAux, if_pos hc, if_neg hacc, ih w [] h,
          wordsAux, if_pos hc, if_neg hacc]
    · rw [List.cons_append, wordsAux, if_neg hc, ih w (c :: acc) h,
        wordsAux, if_neg hc]

/-- Word splitting with a non-empty accumulator yields at least one
word. -/
theorem wordsAux_ne_nil : ∀ (l acc : List Char), acc ≠ [] →
    wordsAux acc l ≠ [] := by
  intro l
  induction l with
  | nil =>
    intro acc hacc
    have : acc.isEmpty = false := by
      cases acc
      · exact absurd rfl hacc
      · rfl
    rw [wordsAux, this]
    exact List.cons_ne_nil _ _
  | cons c cs ih =>
    intro acc hacc
    have haccE : acc.isEmpty = false := by
      cases acc
      · exact absurd rfl hacc
      · rfl
    by_cases hc : isPyWs c = true
    · rw [wordsAux, if_pos hc, haccE]
      exact List.cons_ne_nil _ _
    · rw [wordsAux, if_neg hc]
      exact ih (c :: acc) (List.cons_ne_nil _ _)

/-- `joinWords` over the empty word list or a flushed accumulator. -/
theorem joinWords_wordsAux_nil (acc : List Char) :
    joinWords (wordsAux acc []) = acc.reverse := by
  by_cases hacc : acc.isEmpty = true
  · have : acc = [] := by cases acc; rfl; exact Bool.noConfusion hacc
    subst this
    rfl
  · rw [wordsAux, if_neg hacc]
    rw [joinWords]
    exact List.append_nil _

/-- `dropWhile` never lengthens a list. -/
theorem length_dropWhile_le_own (p : Char → Bool) :
    ∀ l : List Char, (l.dropWhile p).length ≤ l.length := by
  intro l
  induction l with
  | nil => exact Nat.le_refl _
  | cons d ds ih =>
    by_cases hd : p d = true
    · rw [List.dropWhile_cons, if_pos hd]
      exact Nat.le_trans ih (Nat.le_succ _)
    · rw [List.dropWhile_cons, if_neg hd]

/-- `joinWords` of a non-empty-tail word list. -/
theorem joinWords_cons_ne (w : List Char) (ws : List (List Char)) (h : ws ≠ []) :
    joinWords (w :: ws) = w ++ ' ' :: joinWords ws := by
  have hE : ws.isEmpty = false := by
    cases ws
    · exact absurd rfl h
    · rfl
  rw [joinWords, hE]
  rfl

/-- Core of the C6 characterization: on input with no trailing whitespace
(and, when the accumulator is empty, no leading whitespace), joining the
word split with single spaces equals prefixing the flushed accumulator to
the run-collapsed input. -/
theorem joinWords_wordsAux :
    ∀ (n : Nat) (l acc : List Char), l.length ≤ n →
    (∀ c, l.getLast? = some c → isPyWs c = false) →
    (acc = [] → ∀ c, l.head? = some c → isPyWs c = false) →
    joinWords (wordsAux acc l) = acc.reverse ++ subWsAux false l := by
  intro n
  induction n with
  | zero =>
    intro l acc hlen _ _
    obtain rfl : l = [] := List.length_eq_zero.mp (Nat.le_zero.mp hlen)
    rw [joinWords_wordsAux_nil, show subWsAux false [] = [] from rfl,
      List.append_nil]
  | succ n ih =>
    intro l acc hlen htrail hhead
    cases l with
    | nil =>
      rw [joinWords_wordsAux_nil, show subWsAux false [] = [] from rfl,
        List.append_nil]
    | cons c cs =>
      by_cases hc : isPyWs c = true
      · have hacc : acc ≠ [] := by
          intro h0
          have := hhead h0 c rfl
          rw [hc] at this
          exact Bool.noConfusion this
        have haccE : acc.isEmpty = false := by
          cases acc
          · exact absurd rfl hacc
          · rfl
        have hcs : cs ≠ [] := by
          intro h0
          subst h0
          have := htrail c rfl
          rw [hc] at this
          exact Bool.noConfusion this
        have htrailcs : ∀ d, cs.getLast? = some d → isPyWs d = false := by
          intro d hd
          apply htrail
          obtain ⟨x, xs, rfl⟩ := List.exists_cons_of_ne_nil hcs
          rw [List.getLast?_cons_cons]
          exact hd
        have hlastsome : ∃ d, cs.getLast? = some d := by
          obtain ⟨x, xs, rfl⟩ := List.exists_cons_of_ne_nil hcs
          exact Option.isSome_iff_exists.mp (List.getLast?_isSome.mpr (List.cons_ne_nil _ _))
        obtain ⟨d, hd⟩ := hlastsome
        have hcs'_ne : cs.dropWhile isPyWs ≠ [] := by
          intro h0
          rw [List.dropWhile_eq_nil_iff] at h0
          have h1 := h0 d (mem_of_getLast?_eq cs d hd)
          rw [htrailcs d hd] at h1
          exact Bool.noConfusion h1
        have hhead' : ∀ e, (cs.dropWhile isPyWs).head? = some e → isPyWs e = false :=
          head_dropWhile_false isPyWs cs
        have htrail' : ∀ e, (cs.dropWhile isPyWs).getLast? = some e →
            isPyWs e = false := by
          intro e he
          apply htrailcs
          rw [show cs = cs.takeWhile isPyWs ++ cs.dropWhile isPyWs from
            (List.takeWhile_append_dropWhile _ _).symm,
            List.getLast?_append_of_ne_nil _ hcs'_ne]
          exact he
        have hlen' : (cs.dropWhile isPyWs).length ≤ n := by
          have h1 : (cs.dropWhile isPyWs).length ≤ cs.length :=
            length_dropWhile_le_own isPyWs cs
          have h2 : cs.length + 1 ≤ n + 1 := by
            rw [← List.length_cons c cs]
            exact hlen
          omega
        have hw : wordsAux acc (c :: cs) = acc.reverse :: wordsAux [] cs := by
          rw [wordsAux, if_pos hc, haccE]
          rfl
        have hwcs : wordsAux [] cs = wordsAux [] (cs.dropWhile isPyWs) :=
          (wordsAux_dropWhile cs).symm
        have hWne : wordsAux [] (cs.dropWhile isPyWs) ≠ [] := by
          obtain ⟨e, es, hee⟩ := List.exists_cons_of_ne_nil hcs'_ne
          have he : isPyWs e = false := hhead' e (by rw [hee]; rfl)
          rw [hee, wordsAux, if_neg (by rw [he]; exact Bool.noConfusion)]
          exact wordsAux_ne_nil es [e] (List.cons_ne_nil _ _)
        have hsub : subWsAux false (c :: cs)
            = ' ' :: subWsAux false (cs.dropWhile isPyWs) := by
          rw [subWsAux, if_pos hc, if_neg (Bool.false_ne_true), subWsAux_true_eq]
        rw [hw, hwcs, joinWords_cons_ne _ _ hWne, hsub,
          ih (cs.dropWhile isPyWs) [] hlen' htrail' (fun _ => hhead'),
          List.reverse_nil, List.nil_append]
      · have hw : wordsAux acc (c :: cs) = wordsAux (c :: acc) cs := by
          rw [wordsAux, if_neg hc]
        have hsub : subWsAux false (c :: cs) = c :: subWsAux false cs := by
          rw [subWsAux, if_neg hc]
        have hlen' : cs.length ≤ n := by
          have h2 : cs.length + 1 ≤ n + 1 := by
            rw [← List.length_cons c cs]
            exact hlen
          omega
        have htrail' : ∀ e, cs.getLast? = some e → isPyWs e = false := by
          intro e he
          apply htrail
          cases cs with
          | nil => exact Option.noConfusion he
          | cons x xs =>
            rw [List.getLast?_cons_cons]
            exact he
        rw [hw, hsub,
          ih cs (c :: acc) hlen' htrail'
            (fun h0 => absurd h0 (List.cons_ne_nil _ _)),
          List.reverse_cons, List.append_assoc, List.singleton_append]

/-- Collapsing whitespace runs of the stripped input is exactly joining
the whitespace-separated words of the input with single spaces. -/
theorem collapse_eq_joinWords (l : List Char) :
    subWsAux false (pyStripChars l) = joinWords (wordsAux [] l) := by
  have hst : pyStripChars l
      = ((l.dropWhile isPyWs).reverse.dropWhile isPyWs).reverse := rfl
  set a := l.dropWhile isPyWs with ha
  set dw := a.reverse.dropWhile isPyWs with hdw
  have hwa : wordsAux [] l = wordsAux [] a := (wordsAux_dropWhile l).symm
  have hsplit : a = dw.reverse ++ (a.reverse.takeWhile isPyWs).reverse := by
    conv_lhs => rw [← List.reverse_reverse a,
      show a.reverse = a.reverse.takeWhile isPyWs ++ dw from
        (List.takeWhile_append_dropWhile _ _).symm]
    rw [List.reverse_append]
  have hwst : wordsAux [] a = wordsAux [] dw.reverse := by
    conv_lhs => rw [hsplit]
    exact wordsAux_append_ws dw.reverse (a.reverse.takeWhile isPyWs).reverse []
      (fun c hc => List.mem_takeWhile_imp (List.mem_reverse.mp hc))
  have htrail : ∀ c, dw.reverse.getLast? = some c → isPyWs c = false := by
    intro c hcl
    rw [List.getLast?_reverse] at hcl
    exact head_dropWhile_false isPyWs a.reverse c hcl
  have hhead : ∀ c, dw.reverse.head? = some c → isPyWs c = false := by
    intro c hcl
    rw [List.head?_reverse] at hcl
    have hdwne : dw ≠ [] := by
      intro h0
      rw [h0] at hcl
      exact Option.noConfusion hcl
    have h1 : a.reverse.getLast? = some c := by
      rw [show a.reverse = a.reverse.takeWhile isPyWs ++ dw from
        (List.takeWhile_append_dropWhile _ _).symm,
        List.getLast?_append_of_ne_nil _ hdwne]
      exact hcl
    rw [List.getLast?_reverse] at h1
    exact head_dropWhile_false isPyWs l c h1
  have hmain := joinWords_wordsAux dw.reverse.length dw.reverse []
    (Nat.le_refl _) htrail (fun _ => hhead)
  rw [List.reverse_nil, List.nil_append] at hmain
  rw [hst, hwa, hwst]
  exact hmain.symm

/-- C6: `clean_text(text, N)` returns a string of length at most `N + 3`;
its collapsed form is exactly the whitespace-separated words of the input
joined by single spaces (every maximal whitespace run becomes one space,
ends trimmed), and when that collapsed text exceeds `N` characters it is
truncated to `N` characters, right-trimmed, and suffixed with `"..."`. -/
theorem c6_clean_text (t : String) (N : Nat) :
    (clean_text t N).length ≤ N + 3 ∧
    clean_text t N =
      (if (collapsedSpec t).length > N
       then String.mk (pyRstripChars ((collapsedSpec t).toList.take N)) ++ "..."
       else collapsedSpec t) := by
  have hcoll : String.mk (subWsAux false (pyStripChars t.toList))
      = collapsedSpec t := by
    rw [collapsedSpec, collapse_eq_joinWords]
  have heq : clean_text t N =
      (if (collapsedSpec t).length > N
       then String.mk (pyRstripChars ((collapsedSpec t).toList.take N)) ++ "..."
       else collapsedSpec t) := by
    simp only [clean_text]
    rw [hcoll]
  refine ⟨?_, heq⟩
  rw [heq]
  by_cases hN : (collapsedSpec t).length > N
  · rw [if_pos hN]
    rw [String.length_append]
    have h1 : (String.mk (pyRstripChars ((collapsedSpec t).toList.take N))).length
        = (pyRstripChars ((collapsedSpec t).toList.take N)).length := rfl
    have h2 : (pyRstripChars ((collapsedSpec t).toList.take N)).length
        ≤ ((collapsedSpec t).toList.take N).length := by
      rw [pyRstripChars, List.length_reverse]
      exact Nat.le_trans (length_dropWhile_le_own isPyWs _)
        (by rw [List.length_reverse])
    have h3 : ((collapsedSpec t).toList.take N).length ≤ N :=
      List.length_take_le _ _
    have h4 : ("..." : String).length = 3 := rfl
    omega
  · rw [if_neg hN]
    omega

/-- The head of a concatenation with a non-empty left part. -/
theorem head?_append_left {α : Type} (l₁ l₂ : List α) (h : l₁ ≠ []) :
    (l₁ ++ l₂).head? = l₁.head? := by
  cases l₁ with
  | nil => exact absurd rfl h
  | cons x xs => rfl

/-- A list with a `some` head is non-empty. -/
theorem ne_nil_of_head?_eq_some {α : Type} (l : List α) (a : α)
    (h : l.head? = some a) : l ≠ [] := by
  cases l with
  | nil => exact Option.noConfusion h
  | cons x xs => exact List.cons_ne_nil _ _

/-- Head of a `flatMap` whose first block is non-empty. -/
theorem head?_flatMap {α β : Type} (l : List α) (f : α → List β) (a : α)
    (h : l.head? = some a) (hf : f a ≠ []) :
    (l.flatMap f).head? = (f a).head? := by
  cases l with
  | nil => exact Option.noConfusion h
  | cons x xs =>
    obtain rfl : x = a := Option.some_inj.mp h
    rw [List.flatMap_cons, head?_append_left _ _ hf]

/-- The candidate list of a starred pattern is never empty (the empty
unrolling is always offered). -/
theorem starLoop_ne_nil (m : List Char → List (Option (List Char) × List Char))
    (fuel : Nat) (s : List Char) : starLoop m fuel s ≠ [] := by
  cases fuel with
  | zero => exact List.cons_ne_nil _ _
  | succ n =>
    rw [starLoop]
    intro h
    obtain ⟨-, h2⟩ := List.append_eq_nil.mp h
    exact List.cons_ne_nil _ _ h2

theorem star_ne_nil (fuel : Nat) (a : Re) (s : List Char) :
    reMatches fuel (.star a) s ≠ [] := by
  rw [reMatches]
  exact starLoop_ne_nil _ _ _

/-- Greedy digit-star loop: the first candidate consumes every leading
digit. -/
theorem starLoop_digit_head (fuel2 : Nat) : ∀ (fuel : Nat) (s : List Char),
    (s.takeWhile Char.isDigit).length < fuel →
    (starLoop (reMatches fuel2 .digit) fuel s).head?
      = some (none, s.dropWhile Char.isDigit) := by
  intro fuel
  induction fuel with
  | zero =>
    intro s h
    exact absurd h (Nat.not_lt_zero _)
  | succ n ih =>
    intro s hfuel
    cases s with
    | nil =>
      rw [starLoop, show reMatches fuel2 .digit [] = [] from by rw [reMatches],
        List.filter_nil, List.flatMap_nil, List.nil_append]
      rfl
    | cons d rest =>
      by_cases hd : d.isDigit = true
      · have h1 : reMatches fuel2 .digit (d :: rest) = [(none, rest)] := by
          rw [reMatches, if_pos hd]
        have h2 : (reMatches fuel2 .digit (d :: rest)).filter
            (fun r => r.2.length < (d :: rest).length)
            = [(none, rest)] := by
          rw [h1, List.filter_cons]
          rw [if_pos (by
            show decide (rest.length < (d :: rest).length) = true
            rw [decide_eq_true_iff, List.length_cons]
            exact Nat.lt_succ_self _), List.filter_nil]
        have htw : ((d :: rest).takeWhile Char.isDigit).length
            = (rest.takeWhile Char.isDigit).length + 1 := by
          rw [List.takeWhile_cons, if_pos hd, List.length_cons]
        have hih := ih rest (by omega)
        rw [starLoop, h2, List.flatMap_cons, List.flatMap_nil, List.append_nil]
        rw [head?_append_left _ _ (by
          intro hmap
          exact starLoop_ne_nil (reMatches fuel2 .digit) n rest
            (List.map_eq_nil_iff.mp hmap))]
        rw [List.head?_map, hih]
        rw [List.dropWhile_cons, if_pos hd]
        rfl
      · have h1 : reMatches fuel2 .digit (d :: rest) = [] := by
          rw [reMatches, if_neg hd]
        rw [starLoop, h1, List.filter_nil, List.flatMap_nil, List.nil_append]
        rw [List.dropWhile_cons, if_neg hd]
        rfl

/-- Greedy digit-star: the first candidate consumes every leading
digit. -/
theorem star_digit_head (fuel : Nat) (s : List Char)
    (h : (s.takeWhile Char.isDigit).length < fuel) :
    (reMatches fuel (.star .digit) s).head?
      = some (none, s.dropWhile Char.isDigit) := by
  rw [reMatches]
  exact starLoop_digit_head fuel fuel s h

/-- Greedy `\d+`: the first candidate consumes the whole leading digit
run. -/
theorem digitPlus_head (fuel : Nat) (d : Char) (rest : List Char)
    (hd : d.isDigit = true)
    (hfuel : (rest.takeWhile Char.isDigit).length < fuel) :
    (reMatches fuel digitPlus (d :: rest)).head?
      = some (none, rest.dropWhile Char.isDigit) := by
  rw [digitPlus, reMatches]
  have h1 : reMatches fuel .digit (d :: rest) = [(none, rest)] := by
    cases fuel <;> rw [reMatches, if_pos hd]
  rw [h1, List.flatMap_cons, List.flatMap_nil, List.append_nil]
  rw [List.head?_map, star_digit_head fuel rest hfuel]
  rfl

/-- `dropWhile` skips a prefix of satisfying elements. -/
theorem dropWhile_all_append (p : Char → Bool) :
    ∀ (w x : List Char), (∀ a ∈ w, p a = true) →
    List.dropWhile p (w ++ x) = List.dropWhile p x := by
  intro w
  induction w with
  | nil => intro x _; rw [List.nil_append]
  | cons c w' ih =>
    intro x h
    rw [List.cons_append, List.dropWhile_cons,
      if_pos (h c (List.mem_cons_self _ _))]
    exact ih x fun a ha => h a (List.mem_cons_of_mem _ ha)

/-- `dropWhile` leaves a list whose head fails the predicate. -/
theorem dropWhile_head_false (p : Char → Bool) (x : List Char)
    (h : ∀ c, x.head? = some c → p c = false) : List.dropWhile p x = x := by
  cases x with
  | nil => rfl
  | cons c cs =>
    rw [List.dropWhile_cons, if_neg (by rw [h c rfl]; exact Bool.noConfusion)]

/-- `takeWhile` keeps a prefix of satisfying elements. -/
theorem takeWhile_all_append (p : Char → Bool) :
    ∀ (w x : List Char), (∀ a ∈ w, p a = true) →
    List.takeWhile p (w ++ x) = w ++ List.takeWhile p x := by
  intro w
  induction w with
  | nil => intro x _; rw [List.nil_append, List.nil_append]
  | cons c w' ih =>
    intro x h
    rw [List.cons_append, List.takeWhile_cons,
      if_pos (h c (List.mem_cons_self _ _)), ih x
        (fun a ha => h a (List.mem_cons_of_mem _ ha)), List.cons_append]

/-- `takeWhile` of a list whose head fails the predicate is empty. -/
theorem takeWhile_head_false (p : Char → Bool) (x : List Char)
    (h : ∀ c, x.head? = some c → p c = false) : List.takeWhile p x = [] := by
  cases x with
  | nil => rfl
  | cons c cs =>
    rw [List.takeWhile_cons, if_neg (by rw [h c rfl]; exact Bool.noConfusion)]

/-- A concatenation of case-insensitive literals matches exactly itself
(and continues with the remainder). -/
theorem lits_matches (fuel : Nat) : ∀ (w t : List Char),
    reMatches fuel (w.foldr (fun c r => Re.cat (.lit c) r) .eps) (w ++ t)
      = [(none, t)] := by
  intro w
  induction w with
  | nil =>
    intro t
    rw [List.foldr_nil, List.nil_append, reMatches]
  | cons c w' ih =>
    intro t
    rw [List.foldr_cons, List.cons_append, reMatches]
    rw [show reMatches fuel (Re.lit c) (c :: (w' ++ t)) = [(none, w' ++ t)] from by
      rw [reMatches, if_pos (beq_self_eq_true _)]]
    rw [List.flatMap_cons, List.flatMap_nil, List.append_nil, ih t,
      List.map_cons, List.map_nil]
    rfl

/-- First match of the group body `\d+\.\d+` on
`digits ++ "." ++ digits ++ rest`: it consumes exactly the version
token. -/
theorem body_head (fuel : Nat) (da db rest : List Char)
    (hda : da ≠ []) (hdb : db ≠ [])
    (hdiga : ∀ c ∈ da, c.isDigit = true) (hdigb : ∀ c ∈ db, c.isDigit = true)
    (hrest : ∀ c, rest.head? = some c → c.isDigit = false)
    (hfa : da.length ≤ fuel) (hfb : db.length ≤ fuel) :
    (reMatches fuel (.cat digitPlus (.cat (.lit '.') digitPlus))
        (da ++ '.' :: (db ++ rest))).head? = some (none, rest) := by
  obtain ⟨d, da', rfl⟩ := List.exists_cons_of_ne_nil hda
  obtain ⟨e, db', rfl⟩ := List.exists_cons_of_ne_nil hdb
  have hdiga' : ∀ c ∈ da', c.isDigit = true :=
    fun c hc => hdiga c (List.mem_cons_of_mem _ hc)
  have hdigb' : ∀ c ∈ db', c.isDigit = true :=
    fun c hc => hdigb c (List.mem_cons_of_mem _ hc)
  have hdotnd : ('.' : Char).isDigit = false := by decide
  have h_inner_plus :
      (reMatches fuel digitPlus ((e :: db') ++ rest)).head? = some (none, rest) := by
    rw [List.cons_append]
    rw [digitPlus_head fuel e (db' ++ rest) (hdigb e (List.mem_cons_self _ _)) (by
      rw [takeWhile_all_append Char.isDigit db' rest hdigb',
        takeWhile_head_false Char.isDigit rest hrest, List.append_nil]
      have : db'.length + 1 ≤ fuel := by
        rw [← List.length_cons e db']
        exact hfb
      omega)]
    rw [dropWhile_all_append Char.isDigit db' rest hdigb',
      dropWhile_head_false Char.isDigit rest hrest]
  have h_mid :
      (reMatches fuel (.cat (.lit '.') digitPlus) ('.' :: ((e :: db') ++ rest))).head?
        = some (none, rest) := by
    rw [reMatches]
    rw [show reMatches fuel (Re.lit '.') ('.' :: ((e :: db') ++ rest))
        = [(none, (e :: db') ++ rest)] from by
      rw [reMatches, if_pos (beq_self_eq_true _)]]
    rw [List.flatMap_cons, List.flatMap_nil, List.append_nil, List.head?_map,
      h_inner_plus]
    rfl
  have h_first :
      (reMatches fuel digitPlus (d :: (da' ++ '.' :: ((e :: db') ++ rest)))).head?
        = some (none, '.' :: ((e :: db') ++ rest)) := by
    rw [digitPlus_head fuel d (da' ++ '.' :: ((e :: db') ++ rest))
      (hdiga d (List.mem_cons_self _ _)) (by
      rw [takeWhile_all_append Char.isDigit da' _ hdiga',
        takeWhile_head_false Char.isDigit _ (by
          intro c hc
          obtain rfl : '.' = c := Option.some_inj.mp hc
          exact hdotnd), List.append_nil]
      have : da'.length + 1 ≤ fuel := by
        rw [← List.length_cons d da']
        exact hfa
      omega)]
    rw [dropWhile_all_append Char.isDigit da' _ hdiga',
      dropWhile_head_false Char.isDigit _ (by
        intro c hc
        obtain rfl : '.' = c := Option.some_inj.mp hc
        exact hdotnd)]
  rw [List.cons_append, reMatches]
  rw [head?_flatMap _ _ (none, '.' :: ((e :: db') ++ rest)) h_first (by
    intro hmap
    rw [List.map_eq_nil_iff] at hmap
    exact ne_nil_of_head?_eq_some _ _ h_mid hmap)]
  rw [List.head?_map, h_mid]
  rfl

/-- First match of the whole round-trip pattern on the interpolated
template: group 1 captures exactly the version token. -/
theorem roundtrip_pat_head (fuel : Nat) (da db : List Char)
    (hda : da ≠ []) (hdb : db ≠ [])
    (hdiga : ∀ c ∈ da, c.isDigit = true) (hdigb : ∀ c ∈ db, c.isDigit = true)
    (hfa : da.length ≤ fuel) (hfb : db.length ≤ fuel) :
    (reMatches fuel versionRoundTripPat
        ("version ".toList ++ (da ++ '.' :: (db ++ " released".toList)))).head?
      = some (some (da ++ '.' :: db), " released".toList) := by
  have hrest : ∀ c, (" released".toList).head? = some c → c.isDigit = false := by
    intro c hc
    have h1 : (" released".toList).head? = some ' ' := rfl
    rw [h1] at hc
    obtain rfl := Option.some_inj.mp hc
    decide
  rw [versionRoundTripPat, reMatches, litsRe,
    lits_matches fuel "version ".toList _,
    List.flatMap_cons, List.flatMap_nil, List.append_nil,
    List.head?_map, reMatches, List.head?_map,
    body_head fuel da db _ hda hdb hdiga hdigb hrest hfa hfb]
  have htake : (da ++ '.' :: (db ++ " released".toList)).take
      ((da ++ '.' :: (db ++ " released".toList)).length
        - (" released".toList).length)
      = da ++ '.' :: db := by
    have hassoc : da ++ '.' :: (db ++ " released".toList)
        = (da ++ '.' :: db) ++ " released".toList := by
      rw [List.append_assoc, List.cons_append]
    rw [hassoc, List.length_append, Nat.add_sub_cancel, List.take_left]
  simp only [Option.map_some']
  rw [htake]
  rfl

/-- String concatenation concatenates the character lists. -/
theorem toList_append_own (s t : String) :
    (s ++ t).toList = s.toList ++ t.toList := by
  cases s
  cases t
  rfl

/-- `re.search` of the round-trip pattern on the interpolated template
finds the match at position 0 and captures exactly the version token. -/
theorem reSearch_roundtrip (da db : List Char)
    (hda : da ≠ []) (hdb : db ≠ [])
    (hdiga : ∀ c ∈ da, c.isDigit = true) (hdigb : ∀ c ∈ db, c.isDigit = true) :
    reSearch versionRoundTripPat
      ("version " ++ String.mk (da ++ '.' :: db) ++ " released")
      = some (some (String.mk (da ++ '.' :: db))) := by
  have hlist : ("version " ++ String.mk (da ++ '.' :: db) ++ " released").toList
      = "version ".toList ++ (da ++ '.' :: (db ++ " released".toList)) := by
    rw [toList_append_own, toList_append_own,
      show (String.mk (da ++ '.' :: db)).toList = da ++ '.' :: db from rfl,
      List.append_assoc, List.append_assoc, List.cons_append]
  have hlena : da.length
      ≤ ("version ".toList ++ (da ++ '.' :: (db ++ " released".toList))).length + 1 := by
    rw [List.length_append, List.length_append, List.length_cons,
      List.length_append]
    omega
  have hlenb : db.length
      ≤ ("version ".toList ++ (da ++ '.' :: (db ++ " released".toList))).length + 1 := by
    rw [List.length_append, List.length_append, List.length_cons,
      List.length_append]
    omega
  simp only [reSearch]
  rw [hlist, List.range_succ_eq_map, List.findSome?_cons]
  simp only [List.drop_zero]
  rw [roundtrip_pat_head _ da db hda hdb hdiga hdigb hlena hlenb]
  rfl

/-- Counterexample to C7: with pattern `(Unknown)` and text `"Unknown"`,
the extractor returns the default value `"Unknown"` although the pattern
matches — the "only if" direction of the claimed equivalence fails when
the captured group coincides with the default. -/
theorem c7_default_iff_cex :
    extract_version c7Pat "Unknown" "Unknown" = some "Unknown" ∧
    reSearch c7Pat "Unknown" ≠ none ∧
    ¬ (extract_version c7Pat "Unknown" "Unknown" = some "Unknown" ↔
        reSearch c7Pat "Unknown" = none) := by
  decide

/-- C7 (amended): `extract_version` returns the default if the
case-insensitive pattern has no match; when the pattern matches, it
returns the first capture group of the first (leftmost) match — which can
coincide with the default value, so "returns the default" does not imply
"no match"; and the round-trip holds: for text built by interpolating a
version number `da.db` (non-empty digit runs) into the template
`"version {v} released"`, the extractor recovers exactly that version. -/
theorem c7_extract_version :
    (∀ (p : Re) (t d : String), reSearch p t = none →
      extract_version p t d = some d) ∧
    (∀ (p : Re) (t d : String) (g : Option String), reSearch p t = some g →
      extract_version p t d = g) ∧
    (∀ (da db : List Char) (d : String), da ≠ [] → db ≠ [] →
      (∀ c ∈ da, c.isDigit = true) → (∀ c ∈ db, c.isDigit = true) →
      extract_version versionRoundTripPat
        ("version " ++ String.mk (da ++ '.' :: db) ++ " released") d
        = some (String.mk (da ++ '.' :: db))) := by
  refine ⟨?_, ?_, ?_⟩
  · intro p t d h
    rw [extract_version, h]
  · intro p t d g h
    rw [extract_version, h]
  · intro da db d hda hdb hdiga hdigb
    rw [extract_version, reSearch_roundtrip da db hda hdb hdiga hdigb]

/-- Witness for C7: the round-trip at the concrete version `3.12`, and
the default at a concrete non-matching text. -/
theorem c7_extract_version_witness :
    extract_version versionRoundTripPat
      ("version " ++ String.mk ['3', '.', '1', '2'] ++ " released") "Unknown"
      = some (String.mk ['3', '.', '1', '2']) ∧
    extract_version c7Pat "nothing here" "Unknown" = some "Unknown" := by
  obtain ⟨ha, -, hc⟩ := c7_extract_version
  constructor
  · exact hc ['3'] ['1', '2'] "Unknown" (by decide) (by decide) (by decide)
      (by decide)
  · exact ha c7Pat "nothing here" "Unknown" (by decide)
